import Mathlib

/-!
Verification of the arena allocator library (Go package `arena`).

The development shallowly embeds the parts of the source needed by the
claims:

* `BumpAllocator` (`Alloc`, `Reset`, `Owns`) together with the page
  rounding performed by `MakePages` (`mem.go`);
* the `Vec.ensure` growth policy (`vec.go`);
* the separate-chaining hash `Map` (`map.go`);
* the arena-backed `SkipList` (`skiplist.go`).

Machine integers are modelled as `Nat`.  Go's 64-bit bitwise operations
are modelled bit-by-bit with an explicit 64-bit budget, matching the
behaviour of Go's `int`/`uint64` on the values that can actually occur
(all quantities are far below `2^63`, so ideal-integer arithmetic agrees
with Go's wrapping arithmetic).
-/

set_option maxRecDepth 40000

namespace ArenaGo

/-! ## Bit-level helpers (Go `&^` and `&` on 64-bit integers) -/

/-- Bit-by-bit evaluation of Go's AND-NOT (`&^`) on nonnegative 64-bit
integers; the first argument is the remaining bit budget (64 for Go). -/
def andNotAux : Nat → Nat → Nat → Nat
  | 0, _, _ => 0
  | fuel+1, n, m => (if n % 2 = 1 ∧ m % 2 = 0 then 1 else 0) + 2 * andNotAux fuel (n / 2) (m / 2)

/-- Go's `n &^ m` for nonnegative 64-bit values. -/
def andNot (n m : Nat) : Nat := andNotAux 64 n m

/-- Bit-by-bit evaluation of Go's AND (`&`) on 64-bit integers. -/
def landAux : Nat → Nat → Nat → Nat
  | 0, _, _ => 0
  | fuel+1, n, m => (if n % 2 = 1 ∧ m % 2 = 1 then 1 else 0) + 2 * landAux fuel (n / 2) (m / 2)

/-- Go's `n & m` for nonnegative 64-bit values. -/
def land64 (n m : Nat) : Nat := landAux 64 n m

/-! ## Bump allocator (`part_006`, `BumpAllocator`) -/

/-- Page rounding done by `MakePages` in `mem.go`:
`size = ((size + pagesize - 1) / pagesize) * pagesize`. -/
def roundPages (ps size : Nat) : Nat := (size + ps - 1) / ps * ps

/-- `aligned := (b.offset + int(align-1)) &^ int(align-1)`.
For `align = 0` Go computes `int(align-1) = -1` and `x &^ -1 = 0`. -/
def alignOffset (offset align : Nat) : Nat :=
  if align = 0 then 0 else andNot (offset + (align - 1)) (align - 1)

/-- State of `BumpAllocator`: chunk lengths (`len(b.chunks[i])`), the
current chunk index and the offset cursor.  Chunk contents are opaque to
the allocator, so a chunk is represented by its length. -/
structure BumpState where
  chunks : List Nat
  current : Nat
  offset : Nat
deriving Repr, DecidableEq

/-- `NewBumpAllocator(size)`: one chunk obtained from `MakePages(size)`. -/
def newBump (ps size : Nat) : BumpState := ⟨[roundPages ps size], 0, 0⟩

/-- `BumpAllocator.Alloc(size, align)`.  Returns the successor state and
the location of the served allocation as `(chunk index, offset)`. -/
def allocB (ps : Nat) (b : BumpState) (size align : Nat) : BumpState × Nat × Nat :=
  let aligned := alignOffset b.offset align
  if b.chunks.getD b.current 0 < aligned + size then
    -- grow: append a fresh chunk only if there is no next chunk already
    let chunks :=
      if b.chunks.length ≤ b.current + 1 then
        b.chunks ++ [roundPages ps (max size (b.chunks.getD 0 0))]
      else b.chunks
    (⟨chunks, b.current + 1, size⟩, (b.current + 1, 0))
  else
    (⟨b.chunks, b.current, aligned + size⟩, (b.current, aligned))

/-- `BumpAllocator.Reset()`. -/
def resetB (b : BumpState) : BumpState := ⟨b.chunks, 0, 0⟩

/-- Run a sequence of `Alloc(size, align)` calls. -/
def runB (ps : Nat) (b : BumpState) : List (Nat × Nat) → BumpState
  | [] => b
  | (sz, al) :: ops => runB ps (allocB ps b sz al).1 ops

/-- The `(chunk index, offset)` trace of a sequence of `Alloc` calls. -/
def traceB (ps : Nat) (b : BumpState) : List (Nat × Nat) → List (Nat × Nat)
  | [] => []
  | (sz, al) :: ops => (allocB ps b sz al).2 :: traceB ps (allocB ps b sz al).1 ops

/-- Address of an allocation, given the base addresses the page source
returned for the chunks. -/
def addrOf (bases : Nat → Nat) (loc : Nat × Nat) : Nat := bases loc.1 + loc.2

/-! ## `BumpAllocator.Owns` (`part_006`, lines 150-178) -/

/-- Go's `sort.Search` loop: binary search for the smallest index in
`[i, j)` satisfying `f`, with an explicit fuel (`j - i` suffices). -/
def searchLoop (f : Nat → Bool) : Nat → Nat → Nat → Nat
  | 0, i, _ => i
  | fuel+1, i, j =>
    if i < j then
      if f ((i + j) / 2) then searchLoop f fuel i ((i + j) / 2)
      else searchLoop f fuel (((i + j) / 2) + 1) j
    else i

/-- `sort.Search(n, f)`. -/
def sortSearch (n : Nat) (f : Nat → Bool) : Nat := searchLoop f n 0 n

/-- `BumpAllocator.Owns(ptr)`: chunks are `(base address, length)` pairs
in allocation order; a `nil` pointer is address `0`. -/
def ownsB (chunks : List (Nat × Nat)) (p : Nat) : Bool :=
  if p = 0 then false
  else
    let idx := sortSearch chunks.length (fun i => decide (p < (chunks.getD i (0, 0)).1))
    if idx = 0 then false
    else
      decide ((chunks.getD (idx - 1) (0, 0)).1 ≤ p ∧
        p < (chunks.getD (idx - 1) (0, 0)).1 + (chunks.getD (idx - 1) (0, 0)).2)

/-- Pair the chunk lengths of a bump state with the base addresses the
page source returned, in allocation order. -/
def chunksWith (bases : Nat → Nat) (lens : List Nat) : List (Nat × Nat) :=
  (List.range lens.length).map fun i => (bases i, lens.getD i 0)

/-! ## `Vec.ensure` growth policy (`vec.go`, lines 145-169) -/

/-- New capacity chosen by `Vec.ensure` when growth is required
(`SSO_THRESHOLD = 16`, large-allocation floor 64). -/
def growCapacity (curCap needed : Nat) : Nat :=
  if curCap = 0 then
    if needed ≤ 16 then 16 else max needed 64
  else max (curCap * 2) needed

/-- Capacity after `Vec.ensure(needed)`. -/
def ensureCap (curCap needed : Nat) : Nat :=
  if needed ≤ curCap then curCap else growCapacity curCap needed

/-! ## Hash map (`map.go`)

The `Map` keeps a `Vec` of chain-head pointers; the `Vec` is used purely
as an array here, so a bucket is modelled as the list of entries of its
chain, head first (`Set` prepends).  `maphash` values are `uint64`, so
the hash function is an arbitrary `K → Nat` bounded by `2^64`. -/

/-- Entry of a chain: `(hash, key, value)`; the `next` pointer is the
list structure of the chain. -/
structure MEntry (K V : Type) where
  hash : Nat
  key : K
  val : V
deriving DecidableEq

/-- State of `Map`: bucket chains, entry count, capacity and mask. -/
structure MapState (K V : Type) where
  buckets : List (List (MEntry K V))
  count : Nat
  cap : Nat
  mask : Nat
deriving DecidableEq

/-- `NewMap`: 16 empty buckets (`INITIAL_BUCKET_COUNT`), `mask = 15`. -/
def newMap (K V : Type) : MapState K V := ⟨List.replicate 16 [], 0, 16, 15⟩

/-- Walk a chain for the first entry matching `e.hash == hash && e.key == key`
(`Get`'s loop). -/
def chainFind {K V : Type} [DecidableEq K] (h : Nat) (k : K) :
    List (MEntry K V) → Option V
  | [] => none
  | e :: rest => if e.hash = h ∧ e.key = k then some e.val else chainFind h k rest

/-- Update the value of the first matching entry in place (`Set`'s loop). -/
def chainUpdate {K V : Type} [DecidableEq K] (h : Nat) (k : K) (v : V) :
    List (MEntry K V) → List (MEntry K V)
  | [] => []
  | e :: rest =>
    if e.hash = h ∧ e.key = k then ⟨e.hash, e.key, v⟩ :: rest
    else e :: chainUpdate h k v rest

/-- Unlink the first matching entry (`Delete`'s loop). -/
def chainRemove {K V : Type} [DecidableEq K] (h : Nat) (k : K) :
    List (MEntry K V) → List (MEntry K V)
  | [] => []
  | e :: rest => if e.hash = h ∧ e.key = k then rest else e :: chainRemove h k rest

/-- Whether the chain holds a matching entry. -/
def chainHas {K V : Type} [DecidableEq K] (h : Nat) (k : K)
    (c : List (MEntry K V)) : Bool :=
  (chainFind h k c).isSome

/-- One step of `grow`'s rehash loop: prepend the entry to its new
bucket and increment the running count. -/
def rehashStep {K V : Type} (nmask : Nat)
    (acc : List (List (MEntry K V)) × Nat) (e : MEntry K V) :
    List (List (MEntry K V)) × Nat :=
  (acc.1.set (land64 e.hash nmask) (e :: acc.1.getD (land64 e.hash nmask) []),
    acc.2 + 1)

/-- `Map.grow`: double the bucket array and rehash every entry, walking
old buckets in index order and each chain from its head. -/
def growM {K V : Type} (m : MapState K V) : MapState K V :=
  let ncap0 := m.cap * 2
  let ncap := if ncap0 < 16 then 16 else ncap0
  let nmask := ncap - 1
  let res := m.buckets.foldl (fun acc chain => chain.foldl (rehashStep nmask) acc)
    (List.replicate ncap [], 0)
  ⟨res.1, res.2, ncap, nmask⟩

/-- Insert logic of `Map.Set` after the grow check: update the matching
entry in place or prepend a fresh entry to the chain. -/
def setEntry {K V : Type} [DecidableEq K] (hash : K → Nat) (m : MapState K V)
    (k : K) (v : V) : MapState K V :=
  let h := hash k
  let idx := land64 h m.mask
  let chain := m.buckets.getD idx []
  if chainHas h k chain then
    ⟨m.buckets.set idx (chainUpdate h k v chain), m.count, m.cap, m.mask⟩
  else
    ⟨m.buckets.set idx (⟨h, k, v⟩ :: chain), m.count + 1, m.cap, m.mask⟩

/-- `Map.Set(key, value)`: grow when `count > cap*3/4`, then insert. -/
def setM {K V : Type} [DecidableEq K] (hash : K → Nat) (m : MapState K V)
    (k : K) (v : V) : MapState K V :=
  setEntry hash (if m.cap * 3 / 4 < m.count then growM m else m) k v

/-- `Map.Get(key)`: `none` models Go's `(zero value, false)`. -/
def getM {K V : Type} [DecidableEq K] (hash : K → Nat) (m : MapState K V)
    (k : K) : Option V :=
  if m.cap = 0 then none
  else chainFind (hash k) k (m.buckets.getD (land64 (hash k) m.mask) [])

/-- `Map.Get(key)` with Go's result shape `(value, found)`. -/
def getMPair {K V : Type} [DecidableEq K] [Inhabited V] (hash : K → Nat)
    (m : MapState K V) (k : K) : V × Bool :=
  match getM hash m k with
  | some v => (v, true)
  | none => (default, false)

/-- `Map.Delete(key)`: unlink the first matching entry of its chain and
decrement the count; absent keys leave the map unchanged. -/
def deleteM {K V : Type} [DecidableEq K] (hash : K → Nat) (m : MapState K V)
    (k : K) : MapState K V :=
  if m.cap = 0 then m
  else
    let h := hash k
    let idx := land64 h m.mask
    let chain := m.buckets.getD idx []
    if chainHas h k chain then
      ⟨m.buckets.set idx (chainRemove h k chain), m.count - 1, m.cap, m.mask⟩
    else m

/-- Keys currently stored in the map (all chains). -/
def keysM {K V : Type} (m : MapState K V) : List K :=
  (m.buckets.map (fun c => c.map (fun e => e.key))).flatten

/-- Run a sequence of `Set` calls from a fresh map. -/
def runSets {K V : Type} [DecidableEq K] (hash : K → Nat)
    (ops : List (K × V)) : MapState K V :=
  ops.foldl (fun m p => setM hash m p.1 p.2) (newMap K V)

/-- A `Set`/`Delete` call. -/
inductive MapOp (K V : Type) where
  | set (k : K) (v : V)
  | del (k : K)

/-- Run a sequence of `Set`/`Delete` calls from a fresh map. -/
def runMap {K V : Type} [DecidableEq K] (hash : K → Nat)
    (ops : List (MapOp K V)) : MapState K V :=
  ops.foldl (fun m op => match op with
    | MapOp.set k v => setM hash m k v
    | MapOp.del k => deleteM hash m k) (newMap K V)

/-- Value of the last `Set` for a key in a sequence, starting from the
lookup function `g` (the spec's "value most recently set"). -/
def lastValFrom {K V : Type} [DecidableEq K] (g : K → Option V)
    (ops : List (K × V)) (k : K) : Option V :=
  ops.foldl (fun acc p => if p.1 = k then some p.2 else acc) (g k)

/-- Value of the last `Set` for a key in a sequence. -/
def lastVal {K V : Type} [DecidableEq K] (ops : List (K × V)) (k : K) : Option V :=
  lastValFrom (fun _ => none) ops k

/-- Well-formedness invariant of reachable map states: power-of-two
capacity of at least 16, `mask = cap - 1`, `count` equal to the number of
live entries, and every entry stored with its key's hash in the bucket
selected by `hash & mask`, with no duplicate key in a bucket. -/
structure MapWF {K V : Type} (hash : K → Nat) (m : MapState K V) : Prop where
  hlen : m.buckets.length = m.cap
  hcap : ∃ t, m.cap = 2 ^ t
  hcap16 : 16 ≤ m.cap
  hmask : m.mask = m.cap - 1
  hcount : m.count = (m.buckets.map List.length).sum
  hhash : ∀ i, ∀ e ∈ m.buckets.getD i [], e.hash = hash e.key
  hidx : ∀ i, ∀ e ∈ m.buckets.getD i [], land64 e.hash m.mask = i
  hnodup : ∀ i, ((m.buckets.getD i []).map (fun e => e.key)).Nodup

/-! ## Skip list (`skiplist.go`, `part_000`)

Nodes live in the arena; a node is identified by its index in the
allocation-order store `nodes`.  A position during traversal is either
the head sentinel (`none`) or a node id (`some n`); a forward pointer is
`none` (nil) or `some n`.  `DEFAULT_MAX_LEVEL = 16`, so the head's
forward array has 17 slots.  `RandomLevel()` yields a level in `0..16`;
operations take it as an oracle argument (`Fin 17`). -/

/-- Skip list node: key, value, level and forward array of length
`level + 1`. -/
structure SLNode (K V : Type) where
  key : K
  val : V
  lvl : Nat
  fwd : List (Option Nat)

/-- Skip list state: arena node store, head forward array, current
level. -/
structure SLState (K V : Type) where
  nodes : List (SLNode K V)
  headFwd : List (Option Nat)
  level : Nat

instance instInhabitedSLNode {K V : Type} [Inhabited K] [Inhabited V] :
    Inhabited (SLNode K V) := ⟨⟨default, default, 0, []⟩⟩

/-- `NewSkipList`: empty store, 17 nil head pointers, level 0. -/
def newSL (K V : Type) : SLState K V := ⟨[], List.replicate 17 none, 0⟩

/-- The node stored at id `n`. -/
def nodeAt {K V : Type} [Inhabited K] [Inhabited V] (s : SLState K V) (n : Nat) :
    SLNode K V :=
  s.nodes.getD n default

/-- Key of node `n`. -/
def keyAt {K V : Type} [Inhabited K] [Inhabited V] (s : SLState K V) (n : Nat) : K :=
  (nodeAt s n).key

/-- `x.forward[i]` for a position (`none` is the head sentinel). -/
def fwdAt {K V : Type} [Inhabited K] [Inhabited V] (s : SLState K V)
    (p : Option Nat) (i : Nat) : Option Nat :=
  match p with
  | none => s.headFwd.getD i none
  | some n => (nodeAt s n).fwd.getD i none

/-- Inner loop of the search/insert/delete descent:
`for x.forward[i] != nil && x.forward[i].key < key { x = x.forward[i] }`,
with fuel (the store size suffices on well-formed states). -/
def advance {K V : Type} [LinearOrder K] [Inhabited K] [Inhabited V]
    (s : SLState K V) (key : K) (i : Nat) : Nat → Option Nat → Option Nat
  | 0, p => p
  | fuel+1, p =>
    match fwdAt s p i with
    | some n => if keyAt s n < key then advance s key i fuel (some n) else p
    | none => p

/-- Descent from level `i` down to 0, recording the predecessor at every
level (the `update` array): the returned list has the position for level
`j` at index `j`. -/
def descend {K V : Type} [LinearOrder K] [Inhabited K] [Inhabited V]
    (s : SLState K V) (key : K) : Nat → Option Nat → List (Option Nat)
  | 0, p => [advance s key 0 s.nodes.length p]
  | i+1, p =>
    descend s key i (advance s key (i+1) s.nodes.length p) ++
      [advance s key (i+1) s.nodes.length p]

/-- The `update` array built by `Insert`/`Delete` (entries above
`s.level` read as `none`, matching Go's `update[i] = sl.head`
assignments). -/
def updateVec {K V : Type} [LinearOrder K] [Inhabited K] [Inhabited V]
    (s : SLState K V) (key : K) : List (Option Nat) :=
  descend s key s.level none

/-- `Search(key)`: the descent's final position, then one step at level
0 and a key comparison; `(zero, false)` on a miss. -/
def searchSL {K V : Type} [LinearOrder K] [Inhabited K] [Inhabited V]
    (s : SLState K V) (key : K) : V × Bool :=
  match fwdAt s ((updateVec s key).getD 0 none) 0 with
  | some n => if keyAt s n = key then ((nodeAt s n).val, true) else (default, false)
  | none => (default, false)

/-- Write `p.forward[i] = q`. -/
def setFwd {K V : Type} [Inhabited K] [Inhabited V] (s : SLState K V)
    (p : Option Nat) (i : Nat) (q : Option Nat) : SLState K V :=
  match p with
  | none => ⟨s.nodes, s.headFwd.set i q, s.level⟩
  | some n =>
    ⟨s.nodes.set n ⟨(nodeAt s n).key, (nodeAt s n).val, (nodeAt s n).lvl,
      (nodeAt s n).fwd.set i q⟩, s.headFwd, s.level⟩

/-- Splice loop of `Insert`: `update[i].forward[i] = n` for each level in
the list. -/
def spliceAll {K V : Type} [Inhabited K] [Inhabited V] (upd : List (Option Nat))
    (newId : Nat) : SLState K V → List Nat → SLState K V
  | s, [] => s
  | s, i :: rest => spliceAll upd newId (setFwd s (upd.getD i none) i (some newId)) rest

/-- Allocation and splicing of a new node (`Insert`'s not-found path).
The new node's forward array is read from `update[i].forward[i]` before
the splices; this matches Go's interleaved loop because each level's
slot is written exactly once. -/
def insertNew {K V : Type} [LinearOrder K] [Inhabited K] [Inhabited V]
    (s : SLState K V) (key : K) (v : V) (lvl : Nat)
    (upd : List (Option Nat)) : SLState K V :=
  spliceAll upd s.nodes.length
    ⟨s.nodes ++ [⟨key, v, lvl,
        (List.range (lvl + 1)).map (fun i => fwdAt s (upd.getD i none) i)⟩],
      s.headFwd, max s.level lvl⟩
    (List.range (lvl + 1))

/-- `Insert(key, value)` with the oracle level `lvl` chosen by
`RandomLevel()`: update in place when the key exists, splice a new node
otherwise. -/
def insertSL {K V : Type} [LinearOrder K] [Inhabited K] [Inhabited V]
    (s : SLState K V) (key : K) (v : V) (lvl : Nat) : SLState K V :=
  match fwdAt s ((updateVec s key).getD 0 none) 0 with
  | some n =>
    if keyAt s n = key then
      ⟨s.nodes.set n ⟨(nodeAt s n).key, v, (nodeAt s n).lvl, (nodeAt s n).fwd⟩,
        s.headFwd, s.level⟩
    else insertNew s key v lvl (updateVec s key)
  | none => insertNew s key v lvl (updateVec s key)

/-- Unlink loop of `Delete`: splice the node out of each level while
`update[i].forward[i] == x`, breaking at the first level that does not
point to `x`. -/
def unlinkLoop {K V : Type} [Inhabited K] [Inhabited V] (upd : List (Option Nat))
    (x : Nat) : SLState K V → List Nat → SLState K V
  | s, [] => s
  | s, i :: rest =>
    if fwdAt s (upd.getD i none) i = some x then
      unlinkLoop upd x (setFwd s (upd.getD i none) i ((nodeAt s x).fwd.getD i none)) rest
    else s

/-- `for sl.level > 0 && sl.head.forward[sl.level] == nil { sl.level-- }`. -/
def shrinkLevel (hf : List (Option Nat)) : Nat → Nat
  | 0 => 0
  | l+1 => if hf.getD (l + 1) none = none then shrinkLevel hf l else l + 1

/-- `Delete(key)`: unlink the matching node and shrink the level; the
Bool is Go's return value. -/
def deleteSL {K V : Type} [LinearOrder K] [Inhabited K] [Inhabited V]
    (s : SLState K V) (key : K) : SLState K V × Bool :=
  match fwdAt s ((updateVec s key).getD 0 none) 0 with
  | some x =>
    if keyAt s x = key then
      let s' := unlinkLoop (updateVec s key) x s (List.range (s.level + 1))
      (⟨s'.nodes, s'.headFwd, shrinkLevel s'.headFwd s'.level⟩, true)
    else (s, false)
  | none => (s, false)

/-- Node ids along the forward chain of level `i` starting after
position `p` (fuel-bounded walk of `Range`'s loop). -/
def chainIds {K V : Type} [Inhabited K] [Inhabited V] (s : SLState K V) (i : Nat) :
    Nat → Option Nat → List Nat
  | 0, _ => []
  | fuel+1, p =>
    match fwdAt s p i with
    | some n => n :: chainIds s i fuel (some n)
    | none => []

/-- Node ids visited by a full `Range` traversal (level-0 chain). -/
def rangeIds {K V : Type} [Inhabited K] [Inhabited V] (s : SLState K V) : List Nat :=
  chainIds s 0 s.nodes.length none

/-- Keys yielded by a full `Range` traversal, in order. -/
def rangeKeys {K V : Type} [Inhabited K] [Inhabited V] (s : SLState K V) : List K :=
  (rangeIds s).map (keyAt s)

/-- Keys linked on level `i`, in forward order. -/
def levelKeys {K V : Type} [Inhabited K] [Inhabited V] (s : SLState K V)
    (i : Nat) : List K :=
  (chainIds s i s.nodes.length none).map (keyAt s)

/-- `Len()`: count of the level-0 chain. -/
def lenSL {K V : Type} [Inhabited K] [Inhabited V] (s : SLState K V) : Nat :=
  (rangeIds s).length

/-- `Min()`: the first level-0 node, `(zero, zero, false)` when empty. -/
def minSL {K V : Type} [Inhabited K] [Inhabited V] (s : SLState K V) :
    K × V × Bool :=
  match fwdAt s none 0 with
  | some n => ((nodeAt s n).key, (nodeAt s n).val, true)
  | none => (default, default, false)

/-- `Max()`'s inner loop: `for x.forward[i] != nil { x = x.forward[i] }`. -/
def advanceMax {K V : Type} [Inhabited K] [Inhabited V] (s : SLState K V)
    (i : Nat) : Nat → Option Nat → Option Nat
  | 0, p => p
  | fuel+1, p =>
    match fwdAt s p i with
    | some n => advanceMax s i fuel (some n)
    | none => p

/-- `Max()`'s descent from `sl.level` down to 0. -/
def descendMax {K V : Type} [Inhabited K] [Inhabited V] (s : SLState K V) :
    Nat → Option Nat → Option Nat
  | 0, p => advanceMax s 0 s.nodes.length p
  | i+1, p => descendMax s i (advanceMax s (i+1) s.nodes.length p)

/-- `Max()`: rightmost node of the descent, `(zero, zero, false)` when it
never leaves the head. -/
def maxSL {K V : Type} [Inhabited K] [Inhabited V] (s : SLState K V) :
    K × V × Bool :=
  match descendMax s s.level none with
  | some n => ((nodeAt s n).key, (nodeAt s n).val, true)
  | none => (default, default, false)

/-- One `Insert` (with its `RandomLevel()` outcome, always in `0..16`)
or `Delete` call. -/
inductive SLOp (K V : Type) where
  | ins (k : K) (v : V) (lvl : Fin 17)
  | del (k : K)

/-- Run a sequence of skip-list operations from a fresh list. -/
def runSL {K V : Type} [LinearOrder K] [Inhabited K] [Inhabited V]
    (ops : List (SLOp K V)) : SLState K V :=
  ops.foldl (fun s op => match op with
    | SLOp.ins k v lvl => insertSL s k v lvl.val
    | SLOp.del k => (deleteSL s k).1) (newSL K V)

/-- The chain of node ids reachable from `p` at level `i`, ending in a
nil pointer. -/
def IsChain {K V : Type} [Inhabited K] [Inhabited V] (s : SLState K V) (i : Nat) :
    Option Nat → List Nat → Prop
  | p, [] => fwdAt s p i = none
  | p, n :: L => fwdAt s p i = some n ∧ IsChain s i (some n) L

/-- A forward-linked segment from `p` through the listed nodes, ending at
position `q` (no nil requirement). -/
def ChainSeg {K V : Type} [Inhabited K] [Inhabited V] (s : SLState K V) (i : Nat) :
    Option Nat → List Nat → Option Nat → Prop
  | p, [], q => q = p
  | p, n :: L, q => fwdAt s p i = some n ∧ ChainSeg s i (some n) L q

/-- Last position of a walk from `p` through a list of nodes. -/
def endPos (p : Option Nat) : List Nat → Option Nat
  | [] => p
  | n :: L => endPos (some n) L

/-- A forward-pointer slot that Go could legally write: the level index
is inside the position's forward array. -/
def slotValid {K V : Type} [Inhabited K] [Inhabited V] (s : SLState K V)
    (p : Option Nat) (i : Nat) : Prop :=
  match p with
  | none => i < s.headFwd.length
  | some n => n < s.nodes.length ∧ i < (nodeAt s n).fwd.length

/-- The level-`i` chain of a well-formed skip list: the members of the
level-0 chain whose node level is at least `i`, in order. -/
def chainL {K V : Type} [Inhabited K] [Inhabited V] (s : SLState K V)
    (L : List Nat) (i : Nat) : List Nat :=
  L.filter (fun n => decide (i ≤ (nodeAt s n).lvl))

/-- Well-formedness of a skip-list state, with `L` the level-0 chain in
order: every level links exactly the live nodes of at least that level in
strictly increasing key order, node ids are valid, forward arrays have
length `level + 1`, and no live node exceeds the list level. -/
structure SLInv {K V : Type} [LinearOrder K] [Inhabited K] [Inhabited V]
    (s : SLState K V) (L : List Nat) : Prop where
  hhead : s.headFwd.length = 17
  hlev : s.level ≤ 16
  hchain : ∀ i, i ≤ 16 → IsChain s i none (chainL s L i)
  hsorted : List.Pairwise (· < ·) (L.map (keyAt s))
  hvalid : ∀ n ∈ L, n < s.nodes.length
  hflen : ∀ n ∈ L, (nodeAt s n).fwd.length = (nodeAt s n).lvl + 1
  hlvl : ∀ n ∈ L, (nodeAt s n).lvl ≤ s.level

/-- Position reached while descending: the head, or a live node of the
current level's chain whose key is below the target. -/
def GoodEntry {K V : Type} [LinearOrder K] [Inhabited K] [Inhabited V]
    (s : SLState K V) (L : List Nat) (key : K) (j : Nat) (p : Option Nat) : Prop :=
  p = none ∨ ∃ m, p = some m ∧ m ∈ chainL s L j ∧ keyAt s m < key

/-- What the descent establishes at level `j`: the position `q` is the
predecessor of `key` on the level-`j` chain — everything before it is
below `key`, everything from its successor on is not. -/
def SplitAt {K V : Type} [LinearOrder K] [Inhabited K] [Inhabited V]
    (s : SLState K V) (L : List Nat) (key : K) (j : Nat) (q : Option Nat) : Prop :=
  ∃ A B, chainL s L j = A ++ B ∧ q = endPos none A ∧
    (∀ n ∈ A, keyAt s n < key) ∧ IsChain s j q B ∧
    (∀ b, B.head? = some b → ¬ keyAt s b < key)

/-- Position reached while descending in `Max()`: the head, or a live
node of the current level's chain. -/
def GoodEntryMax {K V : Type} [LinearOrder K] [Inhabited K] [Inhabited V]
    (s : SLState K V) (L : List Nat) (j : Nat) (p : Option Nat) : Prop :=
  p = none ∨ ∃ m, p = some m ∧ m ∈ chainL s L j

/-! ## Lemmas about the bump allocator -/

theorem two_pow_dvd_andNotAux (k : Nat) :
    ∀ fuel n, 2 ^ k ∣ andNotAux fuel n (2 ^ k - 1) := by
  induction k with
  | zero => intro fuel n; rw [pow_zero]; exact one_dvd _
  | succ k ih =>
    intro fuel n
    cases fuel with
    | zero => simp [andNotAux]
    | succ fuel =>
      have hpow : 2 ^ (k + 1) = 2 * 2 ^ k := by ring
      have hpos : 0 < 2 ^ k := Nat.pos_pow_of_pos _ (by omega)
      have hmod : (2 ^ (k + 1) - 1) % 2 = 1 := by omega
      have hdiv : (2 ^ (k + 1) - 1) / 2 = 2 ^ k - 1 := by omega
      have : andNotAux (fuel + 1) n (2 ^ (k + 1) - 1) =
          2 * andNotAux fuel (n / 2) (2 ^ k - 1) := by
        simp [andNotAux, hmod, hdiv]
      rw [this, hpow]
      exact Nat.mul_dvd_mul_left 2 (ih fuel (n / 2))

theorem alignOffset_dvd (offset k : Nat) : 2 ^ k ∣ alignOffset offset (2 ^ k) := by
  have hpos : 0 < 2 ^ k := Nat.pos_pow_of_pos _ (by omega)
  unfold alignOffset
  rw [if_neg (by omega)]
  exact two_pow_dvd_andNotAux k 64 _

theorem allocB_loc (ps : Nat) (b : BumpState) (size align : Nat) :
    (allocB ps b size align).2 = (b.current + 1, 0) ∨
      (allocB ps b size align).2 = (b.current, alignOffset b.offset align) := by
  unfold allocB
  dsimp only
  split
  · exact Or.inl rfl
  · exact Or.inr rfl

/-- Claim C4 (amended): for every `Alloc(size, align)` call in any state,
if `align` is a power of two that divides the page size and every chunk
base address returned by the page source is page-aligned, then the
returned address is a multiple of `align`. -/
theorem alloc_address_aligned (ps : Nat) (bases : Nat → Nat) (b : BumpState)
    (size align k : Nat) (hbase : ∀ i, ps ∣ bases i) (hpow : align = 2 ^ k)
    (hdvd : align ∣ ps) :
    addrOf bases (allocB ps b size align).2 % align = 0 := by
  subst hpow
  have hpos : 0 < 2 ^ k := Nat.pos_pow_of_pos _ (by omega)
  have hb : ∀ i, 2 ^ k ∣ bases i := fun i => dvd_trans hdvd (hbase i)
  have hmod : ∀ m, 2 ^ k ∣ m → m % 2 ^ k = 0 := fun m hm =>
    Nat.mod_eq_zero_of_dvd hm
  rcases allocB_loc ps b size (2 ^ k) with h | h <;> rw [h]
  · exact hmod _ (by simpa [addrOf] using hb (b.current + 1))
  · exact hmod _ (dvd_add (hb b.current) (alignOffset_dvd b.offset k))

theorem allocB_overflow_append {ps : Nat} {b : BumpState} {sz al : Nat}
    (hov : b.chunks.getD b.current 0 < alignOffset b.offset al + sz)
    (hfull : b.chunks.length ≤ b.current + 1) :
    allocB ps b sz al =
      (⟨b.chunks ++ [roundPages ps (max sz (b.chunks.getD 0 0))], b.current + 1, sz⟩,
        (b.current + 1, 0)) := by
  simp only [allocB]
  rw [if_pos hov, if_pos hfull]

theorem allocB_overflow_reuse {ps : Nat} {b : BumpState} {sz al : Nat}
    (hov : b.chunks.getD b.current 0 < alignOffset b.offset al + sz)
    (hroom : b.current + 1 < b.chunks.length) :
    allocB ps b sz al = (⟨b.chunks, b.current + 1, sz⟩, (b.current + 1, 0)) := by
  simp only [allocB]
  rw [if_pos hov, if_neg (by omega)]

theorem allocB_fit {ps : Nat} {b : BumpState} {sz al : Nat}
    (hov : ¬ b.chunks.getD b.current 0 < alignOffset b.offset al + sz) :
    allocB ps b sz al =
      (⟨b.chunks, b.current, alignOffset b.offset al + sz⟩,
        (b.current, alignOffset b.offset al)) := by
  simp only [allocB]
  rw [if_neg hov]

theorem allocB_chunks_extend (ps : Nat) (b : BumpState) (sz al : Nat) :
    ∃ ext, ((allocB ps b sz al).1).chunks = b.chunks ++ ext := by
  by_cases hov : b.chunks.getD b.current 0 < alignOffset b.offset al + sz
  · by_cases hfull : b.chunks.length ≤ b.current + 1
    · exact ⟨_, by rw [allocB_overflow_append hov hfull]⟩
    · exact ⟨[], by rw [allocB_overflow_reuse hov (by omega)]; simp⟩
  · exact ⟨[], by rw [allocB_fit hov]; simp⟩

theorem runB_chunks_extend (ps : Nat) :
    ∀ (ops : List (Nat × Nat)) (b : BumpState),
      ∃ ext, (runB ps b ops).chunks = b.chunks ++ ext := by
  intro ops
  induction ops with
  | nil => intro b; exact ⟨[], by simp [runB]⟩
  | cons op ops ih =>
    intro b
    obtain ⟨sz, al⟩ := op
    obtain ⟨e1, h1⟩ := allocB_chunks_extend ps b sz al
    obtain ⟨e2, h2⟩ := ih (allocB ps b sz al).1
    exact ⟨e1 ++ e2, by simp only [runB]; rw [h2, h1, List.append_assoc]⟩

theorem traceB_replay (ps : Nat) :
    ∀ (ops : List (Nat × Nat)) (f t : BumpState),
      t.current = f.current → t.offset = f.offset →
      f.current + 1 = f.chunks.length →
      t.chunks = (runB ps f ops).chunks →
      traceB ps t ops = traceB ps f ops := by
  intro ops
  induction ops with
  | nil => intro f t _ _ _ _; rfl
  | cons op ops ih =>
    intro f t hcur hoff hlen hch
    obtain ⟨sz, al⟩ := op
    have hrunch : t.chunks = (runB ps (allocB ps f sz al).1 ops).chunks := by
      simpa [runB] using hch
    obtain ⟨e2, h2⟩ := runB_chunks_extend ps ops (allocB ps f sz al).1
    have hcurlt : f.current < f.chunks.length := by omega
    by_cases hov : f.chunks.getD f.current 0 < alignOffset f.offset al + sz
    · -- overflow: the fresh run appends a chunk, the replay reuses the next one
      have hf : allocB ps f sz al =
          (⟨f.chunks ++ [roundPages ps (max sz (f.chunks.getD 0 0))], f.current + 1, sz⟩,
            (f.current + 1, 0)) := allocB_overflow_append hov (by omega)
      have hte : t.chunks =
          f.chunks ++ [roundPages ps (max sz (f.chunks.getD 0 0))] ++ e2 := by
        rw [hrunch, h2, hf]
      have hgetD : t.chunks.getD f.current 0 = f.chunks.getD f.current 0 := by
        rw [hte, List.append_assoc]
        exact List.getD_append _ _ _ _ hcurlt
      have htlen : f.current + 1 < t.chunks.length := by
        rw [hte]; simp; omega
      have htov : t.chunks.getD t.current 0 < alignOffset t.offset al + sz := by
        rw [hcur, hoff, hgetD]; exact hov
      have ht : allocB ps t sz al = (⟨t.chunks, t.current + 1, sz⟩, (t.current + 1, 0)) :=
        allocB_overflow_reuse htov (by omega)
      have hfst : (allocB ps f sz al).1 =
          ⟨f.chunks ++ [roundPages ps (max sz (f.chunks.getD 0 0))], f.current + 1, sz⟩ := by
        rw [hf]
      simp only [traceB, ht, hf]
      congr 1
      · rw [hcur]
      · exact ih ⟨f.chunks ++ [roundPages ps (max sz (f.chunks.getD 0 0))], f.current + 1, sz⟩
          ⟨t.chunks, t.current + 1, sz⟩ (by simp [hcur]) rfl (by simp; omega)
          (by rw [← hfst]; exact hrunch)
    · -- fit: both runs bump the offset inside the current chunk
      obtain ⟨e1, h1⟩ := allocB_chunks_extend ps f sz al
      have hte : t.chunks = f.chunks ++ (e1 ++ e2) := by
        rw [hrunch, h2, h1, List.append_assoc]
      have hgetD : t.chunks.getD f.current 0 = f.chunks.getD f.current 0 := by
        rw [hte]; exact List.getD_append _ _ _ _ hcurlt
      have hf : allocB ps f sz al =
          (⟨f.chunks, f.current, alignOffset f.offset al + sz⟩,
            (f.current, alignOffset f.offset al)) := allocB_fit hov
      have htov : ¬ t.chunks.getD t.current 0 < alignOffset t.offset al + sz := by
        rw [hcur, hoff, hgetD]; exact hov
      have ht : allocB ps t sz al =
          (⟨t.chunks, t.current, alignOffset t.offset al + sz⟩,
            (t.current, alignOffset t.offset al)) := allocB_fit htov
      have hfst : (allocB ps f sz al).1 =
          ⟨f.chunks, f.current, alignOffset f.offset al + sz⟩ := by rw [hf]
      simp only [traceB, ht, hf]
      congr 1
      · rw [hcur, hoff]
      · exact ih ⟨f.chunks, f.current, alignOffset f.offset al + sz⟩
          ⟨t.chunks, t.current, alignOffset t.offset al + sz⟩
          (by simp [hcur]) (by simp [hoff]) (by simp; omega)
          (by rw [← hfst]; exact hrunch)

/-- Claim C6: performing an allocation sequence, calling `Reset`, and
performing the same sequence again yields the same chunk indices and
offsets (hence the same addresses) as performing the sequence once on a
fresh arena of the same initial size. -/
theorem bump_reset_replay (ps c0 : Nat) (ops : List (Nat × Nat)) :
    traceB ps (resetB (runB ps (newBump ps c0) ops)) ops =
      traceB ps (newBump ps c0) ops ∧
    ∀ bases : Nat → Nat,
      (traceB ps (resetB (runB ps (newBump ps c0) ops)) ops).map (addrOf bases) =
        (traceB ps (newBump ps c0) ops).map (addrOf bases) := by
  have h := traceB_replay ps ops (newBump ps c0) (resetB (runB ps (newBump ps c0) ops))
    rfl rfl (by simp [newBump]) rfl
  exact ⟨h, fun bases => by rw [h]⟩

/-- Claim C1 (failing input, page size 4096): allocating 8192 bytes from a
4096-byte arena appends an 8192-byte chunk; after `Reset`, allocating
16384 bytes takes the overflow branch but finds a next chunk already
present, so it advances to the existing 8192-byte chunk and serves the
allocation at its offset 0 — the serving chunk is smaller than the
request, contradicting the claim that the allocation always lands in a
chunk of length at least `size`. -/
theorem bump_overflow_serves_small_chunk :
    allocB 4096 (resetB (runB 4096 (newBump 4096 4096) [(8192, 1)])) 16384 1 =
      (⟨[4096, 8192], 1, 16384⟩, (1, 0)) ∧
    (allocB 4096 (resetB (runB 4096 (newBump 4096 4096) [(8192, 1)])) 16384
        1).1.chunks.getD 1 0 < 16384 := by
  constructor <;> decide

/-- Claim C4 (counterexample): with page size 4096 and a page-aligned
chunk base address 4096, the address returned for `Alloc(1, 8192)` is
4096, which is not a multiple of the power-of-two alignment 8192; page
alignment of chunk bases is too weak for alignments above the page
size. -/
theorem alloc_alignment_counterexample :
    (8192 : Nat) = 2 ^ 13 ∧ (∀ i : Nat, (4096 : Nat) ∣ (fun _ : Nat => 4096) i) ∧
    addrOf (fun _ => 4096) (allocB 4096 (newBump 4096 4096) 1 8192).2 % 8192 = 4096 :=
  ⟨by norm_num, fun _ => dvd_refl 4096, by decide⟩

theorem alloc_address_aligned_witness :
    (∀ i : Nat, (4096 : Nat) ∣ (fun _ : Nat => 8192) i) ∧ (8 : Nat) = 2 ^ 3 ∧
    (8 : Nat) ∣ 4096 ∧
    addrOf (fun _ => 8192) (allocB 4096 (newBump 4096 4096) 24 8).2 % 8 = 0 :=
  ⟨fun _ => ⟨2, rfl⟩, by norm_num, ⟨512, rfl⟩,
    alloc_address_aligned 4096 (fun _ => 8192) (newBump 4096 4096) 24 8 3
      (fun _ => ⟨2, rfl⟩) (by norm_num) ⟨512, rfl⟩⟩

/-- Claim C8: when `Vec.ensure` must grow (needed > capacity), a vector of
capacity 0 gets capacity exactly 16 for requests up to 16 and exactly
`max needed 64` beyond; a vector of capacity `c > 0` gets exactly
`max (2*c) needed`. -/
theorem vec_ensure_growth (c n : Nat) (h : c < n) :
    (c = 0 → n ≤ 16 → ensureCap c n = 16) ∧
    (c = 0 → 16 < n → ensureCap c n = max n 64) ∧
    (0 < c → ensureCap c n = max (c * 2) n) := by
  unfold ensureCap growCapacity
  refine ⟨?_, ?_, ?_⟩
  · intro h0 h16; subst h0; rw [if_neg (by omega), if_pos rfl, if_pos h16]
  · intro h0 h16; subst h0; rw [if_neg (by omega), if_pos rfl, if_neg (by omega)]
  · intro hpos; rw [if_neg (by omega), if_neg (by omega)]

theorem vec_ensure_growth_witness :
    (4 : Nat) < 9 ∧ (0 : Nat) < 4 ∧ ensureCap 4 9 = max (4 * 2) 9 :=
  ⟨by decide, by decide, (vec_ensure_growth 4 9 (by decide)).2.2 (by decide)⟩

/-- Claim C2 (counterexample): two 4096-byte allocations leave the
allocator with two 4096-byte chunks; if the page source returned the
page-aligned, non-overlapping base addresses 8192 (first chunk) and 4096
(second chunk) — a descending order the OS is free to produce — then the
pointer 8192 lies inside the first chunk, yet `Owns` returns false
because its binary search assumes ascending base addresses. -/
theorem owns_unsorted_counterexample :
    (runB 4096 (newBump 4096 4096) [(4096, 1), (4096, 1)]).chunks = [4096, 4096] ∧
    ownsB (chunksWith (fun i => if i = 0 then 8192 else 4096) [4096, 4096]) 8192 = false ∧
    ((chunksWith (fun i => if i = 0 then 8192 else 4096) [4096, 4096]).getD 0 (0, 0)).1 ≤
      8192 ∧
    8192 <
      ((chunksWith (fun i => if i = 0 then 8192 else 4096) [4096, 4096]).getD 0 (0, 0)).1 +
      ((chunksWith (fun i => if i = 0 then 8192 else 4096) [4096, 4096]).getD 0 (0, 0)).2 := by
  refine ⟨by decide, by decide, by decide, by decide⟩

theorem searchLoop_spec (f : Nat → Bool) (n : Nat)
    (hmono : ∀ x y, x ≤ y → y < n → f x = true → f y = true) :
    ∀ fuel i j, i ≤ j → j ≤ n → j - i ≤ fuel →
      i ≤ searchLoop f fuel i j ∧ searchLoop f fuel i j ≤ j ∧
      (∀ x, i ≤ x → x < searchLoop f fuel i j → f x = false) ∧
      (searchLoop f fuel i j < j → f (searchLoop f fuel i j) = true) := by
  intro fuel
  induction fuel with
  | zero =>
    intro i j hij hjn hfuel
    have hij' : i = j := by omega
    subst hij'
    simp only [searchLoop]
    exact ⟨le_refl i, le_refl i, fun x h1 h2 => absurd h2 (by omega), fun h => absurd h (by omega)⟩
  | succ fuel ih =>
    intro i j hij hjn hfuel
    by_cases hlt : i < j
    · have hh1 : i ≤ (i + j) / 2 := by omega
      have hh2 : (i + j) / 2 < j := by omega
      by_cases hf : f ((i + j) / 2)
      · have heq : searchLoop f (fuel + 1) i j = searchLoop f fuel i ((i + j) / 2) := by
          simp only [searchLoop, if_pos hlt, if_pos hf]
        obtain ⟨c1, c2, c3, c4⟩ := ih i ((i + j) / 2) hh1 (by omega) (by omega)
        rw [heq]
        refine ⟨c1, by omega, c3, ?_⟩
        intro _
        rcases Nat.lt_or_ge (searchLoop f fuel i ((i + j) / 2)) ((i + j) / 2) with hr | hr
        · exact c4 hr
        · have : searchLoop f fuel i ((i + j) / 2) = (i + j) / 2 := by omega
          rw [this]; exact hf
      · have heq : searchLoop f (fuel + 1) i j = searchLoop f fuel ((i + j) / 2 + 1) j := by
          simp only [searchLoop, if_pos hlt, if_neg hf]
        obtain ⟨c1, c2, c3, c4⟩ := ih ((i + j) / 2 + 1) j (by omega) hjn (by omega)
        rw [heq]
        refine ⟨by omega, c2, ?_, c4⟩
        intro x hx1 hx2
        rcases le_or_lt x ((i + j) / 2) with hxh | hxh
        · by_cases hfx : f x = true
          · exact absurd (hmono x ((i + j) / 2) hxh (by omega) hfx) (by simp [hf])
          · simpa using hfx
        · exact c3 x (by omega) hx2
    · have hij' : i = j := by omega
      subst hij'
      simp only [searchLoop, if_neg hlt]
      exact ⟨le_refl i, le_refl i, fun x h1 h2 => absurd h2 (by omega), fun h => absurd h (by omega)⟩

theorem chunkBase_mono (cs : List (Nat × Nat))
    (hsort : ∀ i, i + 1 < cs.length →
      (cs.getD i (0, 0)).1 + (cs.getD i (0, 0)).2 ≤ (cs.getD (i + 1) (0, 0)).1) :
    ∀ i j, i ≤ j → j < cs.length → (cs.getD i (0, 0)).1 ≤ (cs.getD j (0, 0)).1 := by
  intro i j
  induction j with
  | zero =>
    intro hij _
    have hi0 : i = 0 := by omega
    subst hi0
    exact le_refl _
  | succ j ihj =>
    intro hij hjn
    rcases Nat.lt_or_ge i (j + 1) with h | h
    · exact le_trans (ihj (by omega) (by omega))
        (le_trans (Nat.le_add_right _ _) (hsort j hjn))
    · have hi : i = j + 1 := by omega
      subst hi
      exact le_refl _

theorem sortSearch_spec (f : Nat → Bool) (n : Nat)
    (hmono : ∀ x y, x ≤ y → y < n → f x = true → f y = true) :
    sortSearch n f ≤ n ∧ (∀ x, x < sortSearch n f → f x = false) ∧
      (sortSearch n f < n → f (sortSearch n f) = true) := by
  obtain ⟨h0, h1, h2, h3⟩ := searchLoop_spec f n hmono n 0 n (by omega) (le_refl _) (by omega)
  exact ⟨h1, fun x hx => h2 x (by omega) hx, h3⟩

theorem ownsB_eq (cs : List (Nat × Nat)) (p : Nat) (hp : p ≠ 0) :
    ownsB cs p =
      (if sortSearch cs.length (fun i => decide (p < (cs.getD i (0, 0)).1)) = 0 then false
       else
        decide
          ((cs.getD (sortSearch cs.length
              (fun i => decide (p < (cs.getD i (0, 0)).1)) - 1) (0, 0)).1 ≤ p ∧
            p < (cs.getD (sortSearch cs.length
              (fun i => decide (p < (cs.getD i (0, 0)).1)) - 1) (0, 0)).1 +
              (cs.getD (sortSearch cs.length
                (fun i => decide (p < (cs.getD i (0, 0)).1)) - 1) (0, 0)).2)) := by
  simp only [ownsB, if_neg hp]

/-- Claim C2 (amended): `Owns(nil)` is always false, and whenever the
chunk base addresses are positive and ascending without overlap — the
ordering the implementation assumes of the page source — `Owns(p)`
returns true exactly when `p` lies inside the address range of one of the
chunks the allocator holds. -/
theorem owns_sorted_correct (cs : List (Nat × Nat)) (p : Nat)
    (hsort : ∀ i, i + 1 < cs.length →
      (cs.getD i (0, 0)).1 + (cs.getD i (0, 0)).2 ≤ (cs.getD (i + 1) (0, 0)).1)
    (hpos : ∀ i, i < cs.length → 0 < (cs.getD i (0, 0)).1) :
    (ownsB cs p = true ↔ ∃ i, i < cs.length ∧ (cs.getD i (0, 0)).1 ≤ p ∧
      p < (cs.getD i (0, 0)).1 + (cs.getD i (0, 0)).2) ∧
    ownsB cs 0 = false := by
  refine ⟨?_, by simp [ownsB]⟩
  by_cases hp : p = 0
  · subst hp
    simp only [ownsB, if_pos rfl]
    constructor
    · intro h; exact absurd h (by simp)
    · rintro ⟨i, hi, h1, h2⟩
      have := hpos i hi
      omega
  · have hmono : ∀ x y, x ≤ y → y < cs.length →
        (fun i => decide (p < (cs.getD i (0, 0)).1)) x = true →
        (fun i => decide (p < (cs.getD i (0, 0)).1)) y = true := by
      intro x y hxy hyn hx
      simp only [decide_eq_true_eq] at hx ⊢
      exact lt_of_lt_of_le hx (chunkBase_mono cs hsort x y hxy hyn)
    obtain ⟨hrn, hbelow, hat⟩ :=
      sortSearch_spec (fun i => decide (p < (cs.getD i (0, 0)).1)) cs.length hmono
    rw [ownsB_eq cs p hp]
    set r := sortSearch cs.length (fun i => decide (p < (cs.getD i (0, 0)).1)) with hrdef
    constructor
    · intro hown
      rcases Nat.eq_zero_or_pos r with hz | hz
      · rw [if_pos hz] at hown; exact absurd hown (by simp)
      · rw [if_neg (by omega)] at hown
        simp only [decide_eq_true_eq] at hown
        exact ⟨r - 1, by omega, hown.1, hown.2⟩
    · rintro ⟨k, hk, hk1, hk2⟩
      have hge : k + 1 ≤ r := by
        by_contra hcon
        have hrlt : r ≤ k := by omega
        have hft := hat (by omega)
        simp only [decide_eq_true_eq] at hft
        have hb := chunkBase_mono cs hsort r k hrlt hk
        omega
      have hle : r ≤ k + 1 := by
        by_contra hcon
        have hkn : k + 1 < cs.length := by omega
        have hff := hbelow (k + 1) (by omega)
        simp only [decide_eq_false_iff_not, not_lt] at hff
        have hs := hsort k hkn
        omega
      have hreq : r = k + 1 := by omega
      rw [hreq, if_neg (by omega)]
      simp only [Nat.add_sub_cancel, decide_eq_true_eq]
      exact ⟨hk1, hk2⟩

theorem owns_sorted_correct_witness :
    (∀ i, i + 1 < ([((4096 : Nat), (4096 : Nat))] : List (Nat × Nat)).length →
      (([((4096 : Nat), (4096 : Nat))] : List (Nat × Nat)).getD i (0, 0)).1 +
        (([((4096 : Nat), (4096 : Nat))] : List (Nat × Nat)).getD i (0, 0)).2 ≤
        (([((4096 : Nat), (4096 : Nat))] : List (Nat × Nat)).getD (i + 1) (0, 0)).1) ∧
    (∀ i, i < ([((4096 : Nat), (4096 : Nat))] : List (Nat × Nat)).length →
      0 < (([((4096 : Nat), (4096 : Nat))] : List (Nat × Nat)).getD i (0, 0)).1) ∧
    ((ownsB [((4096 : Nat), (4096 : Nat))] 5000 = true ↔
      ∃ i, i < ([((4096 : Nat), (4096 : Nat))] : List (Nat × Nat)).length ∧
        (([((4096 : Nat), (4096 : Nat))] : List (Nat × Nat)).getD i (0, 0)).1 ≤ 5000 ∧
        5000 < (([((4096 : Nat), (4096 : Nat))] : List (Nat × Nat)).getD i (0, 0)).1 +
          (([((4096 : Nat), (4096 : Nat))] : List (Nat × Nat)).getD i (0, 0)).2) ∧
      ownsB [((4096 : Nat), (4096 : Nat))] 0 = false) :=
  ⟨fun i hi => absurd hi (by simp),
    fun i hi => by
      have : i = 0 := by simpa using hi
      subst this; decide,
    owns_sorted_correct [((4096 : Nat), (4096 : Nat))] 5000
      (fun i hi => absurd hi (by simp))
      (fun i hi => by
        have : i = 0 := by simpa using hi
        subst this; decide)⟩

/-! ## Lemmas about the hash map -/

theorem landAux_zero_right : ∀ fuel n, landAux fuel n 0 = 0 := by
  intro fuel
  induction fuel with
  | zero => intro n; rfl
  | succ fuel ih => intro n; simp [landAux, ih]

theorem landAux_two_pow_sub_one :
    ∀ fuel n t, n < 2 ^ fuel → landAux fuel n (2 ^ t - 1) = n % 2 ^ t := by
  intro fuel
  induction fuel with
  | zero =>
    intro n t hn
    have hn0 : n = 0 := by simpa using hn
    subst hn0
    simp [landAux]
  | succ fuel ih =>
    intro n t hn
    cases t with
    | zero => simp [landAux_zero_right, Nat.mod_one]
    | succ t =>
      have hpow : (2 : Nat) ^ (t + 1) = 2 * 2 ^ t := by ring
      have hpos : (0 : Nat) < 2 ^ t := Nat.pos_pow_of_pos _ (by omega)
      have hmod : (2 ^ (t + 1) - 1) % 2 = 1 := by omega
      have hdiv : (2 ^ (t + 1) - 1) / 2 = 2 ^ t - 1 := by omega
      have hn2 : n / 2 < 2 ^ fuel := by
        have : (2 : Nat) ^ (fuel + 1) = 2 * 2 ^ fuel := by ring
        omega
      have hrec := ih (n / 2) t hn2
      have hgoal : n % 2 ^ (t + 1) = n % 2 + 2 * (n / 2 % 2 ^ t) := by
        rw [hpow]; exact Nat.mod_mul
      simp only [landAux, hmod, hdiv, hrec, hgoal]
      rcases Nat.mod_two_eq_zero_or_one n with h2 | h2 <;> simp [h2]

theorem land64_two_pow_sub_one (n t : Nat) (hn : n < 2 ^ 64) :
    land64 n (2 ^ t - 1) = n % 2 ^ t :=
  landAux_two_pow_sub_one 64 n t hn

theorem getD_set_self {α : Type} (l : List α) (i : Nat) (x d : α) (h : i < l.length) :
    (l.set i x).getD i d = x := by
  simp [List.getD_eq_getElem?_getD, List.getElem?_set_self h]

theorem getD_set_ne {α : Type} (l : List α) {i j : Nat} (x d : α) (h : i ≠ j) :
    (l.set i x).getD j d = l.getD j d := by
  simp [List.getD_eq_getElem?_getD, List.getElem?_set_ne h]

theorem getD_replicate_nil {α : Type} (n i : Nat) :
    (List.replicate n ([] : List α)).getD i [] = [] := by
  simp only [List.getD_eq_getElem?_getD, List.getElem?_replicate]
  split <;> simp

section MapLemmas

variable {K V : Type} [DecidableEq K]

theorem chainHas_cons (h : Nat) (k : K) (e : MEntry K V) (rest : List (MEntry K V)) :
    chainHas h k (e :: rest) =
      if e.hash = h ∧ e.key = k then true else chainHas h k rest := by
  simp only [chainHas, chainFind]
  split <;> simp

theorem chainFind_chainUpdate_self (h : Nat) (k : K) (v : V) :
    ∀ c : List (MEntry K V), chainHas h k c = true →
      chainFind h k (chainUpdate h k v c) = some v := by
  intro c
  induction c with
  | nil => intro hc; simp [chainHas, chainFind] at hc
  | cons e rest ih =>
    intro hc
    by_cases hm : e.hash = h ∧ e.key = k
    · simp [chainUpdate, if_pos hm, chainFind, hm]
    · rw [chainHas_cons, if_neg hm] at hc
      simp [chainUpdate, if_neg hm, chainFind, hm, ih hc]

theorem chainFind_chainUpdate_ne (h h' : Nat) (k k' : K) (v : V) (hk : k ≠ k') :
    ∀ c : List (MEntry K V),
      chainFind h' k' (chainUpdate h k v c) = chainFind h' k' c := by
  intro c
  induction c with
  | nil => rfl
  | cons e rest ih =>
    by_cases hm : e.hash = h ∧ e.key = k
    · have hne : ¬ ((⟨e.hash, e.key, v⟩ : MEntry K V).hash = h' ∧
          (⟨e.hash, e.key, v⟩ : MEntry K V).key = k') := by
        rintro ⟨_, hkk⟩
        exact hk (by rw [← hm.2, hkk])
      have hne2 : ¬ (e.hash = h' ∧ e.key = k') := by
        rintro ⟨_, hkk⟩
        exact hk (by rw [← hm.2, hkk])
      simp [chainUpdate, if_pos hm, chainFind, if_neg hne, if_neg hne2]
    · simp [chainUpdate, if_neg hm, chainFind, ih]

theorem chainFind_eq_none (h : Nat) (k : K) :
    ∀ c : List (MEntry K V), (∀ e ∈ c, e.key ≠ k) → chainFind h k c = none := by
  intro c
  induction c with
  | nil => intro _; rfl
  | cons e rest ih =>
    intro hc
    have hne : ¬ (e.hash = h ∧ e.key = k) := by
      rintro ⟨_, hkk⟩
      exact hc e (by simp) hkk
    simp [chainFind, if_neg hne]
    exact ih fun e' he' => hc e' (by simp [he'])

theorem chainUpdate_hashKey (h : Nat) (k : K) (v : V) :
    ∀ c : List (MEntry K V),
      (chainUpdate h k v c).map (fun e => (e.hash, e.key)) =
        c.map (fun e => (e.hash, e.key)) := by
  intro c
  induction c with
  | nil => rfl
  | cons e rest ih =>
    by_cases hm : e.hash = h ∧ e.key = k
    · simp [chainUpdate, if_pos hm]
    · simp [chainUpdate, if_neg hm, ih]

theorem chainUpdate_length (h : Nat) (k : K) (v : V) (c : List (MEntry K V)) :
    (chainUpdate h k v c).length = c.length := by
  have := congrArg List.length (chainUpdate_hashKey h k v c)
  simpa using this

theorem mem_chainUpdate (h : Nat) (k : K) (v : V) (c : List (MEntry K V))
    (e' : MEntry K V) (he : e' ∈ chainUpdate h k v c) :
    ∃ e ∈ c, e'.hash = e.hash ∧ e'.key = e.key := by
  have hp : (e'.hash, e'.key) ∈ (chainUpdate h k v c).map (fun e => (e.hash, e.key)) :=
    List.mem_map_of_mem _ he
  rw [chainUpdate_hashKey] at hp
  obtain ⟨e, hmem, heq⟩ := List.mem_map.mp hp
  exact ⟨e, hmem, by simp_all [Prod.ext_iff], by simp_all [Prod.ext_iff]⟩

theorem chainFind_eq_some_iff (hash : K → Nat) (k : K) (v : V) :
    ∀ c : List (MEntry K V), (∀ e ∈ c, e.hash = hash e.key) →
      ((c.map (fun e => e.key)).Nodup) →
      (chainFind (hash k) k c = some v ↔ ∃ e ∈ c, e.key = k ∧ e.val = v) := by
  intro c
  induction c with
  | nil => intro _ _; simp [chainFind]
  | cons e rest ih =>
    intro hh hnd
    have hhe : e.hash = hash e.key := hh e (by simp)
    have hhrest : ∀ e' ∈ rest, e'.hash = hash e'.key := fun e' he' => hh e' (by simp [he'])
    have hndrest : (rest.map (fun e => e.key)).Nodup := (List.nodup_cons.mp hnd).2
    by_cases hm : e.hash = hash k ∧ e.key = k
    · simp only [chainFind, if_pos hm]
      constructor
      · rintro hv
        exact ⟨e, by simp, hm.2, by simpa using hv⟩
      · rintro ⟨e', he', hk', hv'⟩
        rcases List.mem_cons.mp he' with rfl | hmem
        · simp [← hv']
        · exfalso
          have : e.key ∈ rest.map (fun e => e.key) :=
            List.mem_map.mpr ⟨e', hmem, by rw [hk', hm.2]⟩
          exact (List.nodup_cons.mp hnd).1 this
    · have hkne : e.key ≠ k := by
        intro hkk
        exact hm ⟨by rw [hhe, hkk], hkk⟩
      simp only [chainFind, if_neg hm]
      rw [ih hhrest hndrest]
      constructor
      · rintro ⟨e', he', hk', hv'⟩
        exact ⟨e', by simp [he'], hk', hv'⟩
      · rintro ⟨e', he', hk', hv'⟩
        rcases List.mem_cons.mp he' with rfl | hmem
        · exact absurd hk' hkne
        · exact ⟨e', hmem, hk', hv'⟩

theorem sum_map_length_set {α : Type} (f : α → Nat) :
    ∀ (l : List α) (i : Nat) (x : α), i < l.length →
      ((l.set i x).map f).sum + f (l.getD i x) = (l.map f).sum + f x := by
  intro l
  induction l with
  | nil => intro i x h; simp at h
  | cons a rest ih =>
    intro i x h
    cases i with
    | zero => simp [List.getD_cons_zero]; omega
    | succ i =>
      have := ih i x (by simpa using h)
      simp only [List.set_cons_succ, List.map_cons, List.sum_cons, List.getD_cons_succ]
      omega

theorem mem_buckets_getD_iff {α : Type} (bs : List (List α)) (x : α) :
    (∃ i, i < bs.length ∧ x ∈ bs.getD i []) ↔ x ∈ bs.flatten := by
  constructor
  · rintro ⟨i, hi, hx⟩
    have hbi : bs.getD i [] = bs[i] := by
      simp [List.getD_eq_getElem?_getD, List.getElem?_eq_getElem hi]
    rw [hbi] at hx
    exact List.mem_flatten.mpr ⟨bs[i], List.getElem_mem hi, hx⟩
  · intro hx
    obtain ⟨c, hc, hxc⟩ := List.mem_flatten.mp hx
    obtain ⟨i, hi, hceq⟩ := List.mem_iff_getElem.mp hc
    refine ⟨i, hi, ?_⟩
    have hbi : bs.getD i [] = bs[i] := by
      simp [List.getD_eq_getElem?_getD, List.getElem?_eq_getElem hi]
    rw [hbi, hceq]
    exact hxc

theorem rehashFold_spec (nmask : Nat) :
    ∀ (es : List (MEntry K V)) (acc : List (List (MEntry K V)) × Nat),
      (∀ e ∈ es, land64 e.hash nmask < acc.1.length) →
      (es.foldl (rehashStep nmask) acc).1.length = acc.1.length ∧
      (es.foldl (rehashStep nmask) acc).2 = acc.2 + es.length ∧
      ((es.foldl (rehashStep nmask) acc).1.map List.length).sum =
        (acc.1.map List.length).sum + es.length ∧
      ∀ j, (es.foldl (rehashStep nmask) acc).1.getD j [] =
        (es.filter (fun e => decide (land64 e.hash nmask = j))).reverse ++
          acc.1.getD j [] := by
  intro es
  induction es with
  | nil => intro acc _; simp
  | cons e rest ih =>
    intro acc hin
    have hel : land64 e.hash nmask < acc.1.length := hin e (by simp)
    have hstep1 : (rehashStep nmask acc e).1 =
        acc.1.set (land64 e.hash nmask)
          (e :: acc.1.getD (land64 e.hash nmask) []) := rfl
    have hstep2 : (rehashStep nmask acc e).2 = acc.2 + 1 := rfl
    have hlen' : (rehashStep nmask acc e).1.length = acc.1.length := by
      rw [hstep1, List.length_set]
    obtain ⟨ih1, ih2, ih3, ih4⟩ := ih (rehashStep nmask acc e)
      (by rw [hlen']; exact fun e' he' => hin e' (by simp [he']))
    rw [List.foldl_cons]
    refine ⟨by rw [ih1, hlen'], by rw [ih2, hstep2]; simp; omega, ?_, ?_⟩
    · rw [ih3]
      have hsum := sum_map_length_set List.length acc.1 (land64 e.hash nmask)
        (e :: acc.1.getD (land64 e.hash nmask) []) hel
      have hgd : acc.1.getD (land64 e.hash nmask)
          (e :: acc.1.getD (land64 e.hash nmask) []) =
          acc.1.getD (land64 e.hash nmask) [] := by
        simp [List.getD_eq_getElem?_getD, List.getElem?_eq_getElem hel]
      rw [hgd] at hsum
      rw [hstep1]
      simp only [List.length_cons] at hsum ⊢
      omega
    · intro j
      rw [ih4 j, List.filter_cons]
      by_cases hj : land64 e.hash nmask = j
      · have hgd : (rehashStep nmask acc e).1.getD j [] =
            e :: acc.1.getD j [] := by
          rw [hstep1, ← hj]
          exact getD_set_self _ _ _ _ hel
        rw [hgd, if_pos (by simp [hj]), List.reverse_cons, List.append_assoc]
        rfl
      · have hgd : (rehashStep nmask acc e).1.getD j [] = acc.1.getD j [] := by
          rw [hstep1]
          exact getD_set_ne _ _ _ hj
        rw [hgd, if_neg (by simp [hj])]

theorem keys_flatten_nodup (hash : K → Nat) (m : MapState K V) (wf : MapWF hash m) :
    (m.buckets.flatten.map (fun e => e.key)).Nodup := by
  rw [List.map_flatten, List.nodup_flatten]
  constructor
  · intro l hl
    obtain ⟨c, hc, rfl⟩ := List.mem_map.mp hl
    obtain ⟨i, hi, hceq⟩ := List.mem_iff_getElem.mp hc
    have hbi : m.buckets.getD i [] = c := by
      simp [List.getD_eq_getElem?_getD, List.getElem?_eq_getElem hi, hceq]
    rw [← hbi]
    exact wf.hnodup i
  · rw [List.pairwise_iff_getElem]
    intro i j hi hj hij k hki hkj
    simp only [List.getElem_map] at hki hkj
    obtain ⟨e1, he1, hk1⟩ := List.mem_map.mp hki
    obtain ⟨e2, he2, hk2⟩ := List.mem_map.mp hkj
    have hi' : i < m.buckets.length := by simpa using hi
    have hj' : j < m.buckets.length := by simpa using hj
    have hb1 : m.buckets.getD i [] = m.buckets[i] := by
      simp [List.getD_eq_getElem?_getD, List.getElem?_eq_getElem hi']
    have hb2 : m.buckets.getD j [] = m.buckets[j] := by
      simp [List.getD_eq_getElem?_getD, List.getElem?_eq_getElem hj']
    have he1' : e1 ∈ m.buckets.getD i [] := by
      rw [hb1]
      simpa [List.getElem_map] using he1
    have he2' : e2 ∈ m.buckets.getD j [] := by
      rw [hb2]
      simpa [List.getElem_map] using he2
    have hh1 := wf.hhash i e1 he1'
    have hh2 := wf.hhash j e2 he2'
    have hx1 := wf.hidx i e1 he1'
    have hx2 := wf.hidx j e2 he2'
    have : i = j := by
      rw [← hx1, ← hx2, hh1, hh2, hk1, hk2]
    omega

theorem growM_spec (hash : K → Nat) (m : MapState K V) (hb : ∀ k, hash k < 2 ^ 64)
    (wf : MapWF hash m) :
    MapWF hash (growM m) ∧ (growM m).count = m.count ∧
      (growM m).cap = 2 * m.cap ∧ (growM m).mask = 2 * m.cap - 1 ∧
      ∀ j, (growM m).buckets.getD j [] =
        (m.buckets.flatten.filter
          (fun e => decide (land64 e.hash (2 * m.cap - 1) = j))).reverse := by
  obtain ⟨t, hcap⟩ := wf.hcap
  have hncap : (if m.cap * 2 < 16 then 16 else m.cap * 2) = 2 * m.cap := by
    have := wf.hcap16
    rw [if_neg (by omega)]
    omega
  have hgrow : growM m =
      ⟨(m.buckets.flatten.foldl (rehashStep (2 * m.cap - 1))
          (List.replicate (2 * m.cap) [], 0)).1,
        (m.buckets.flatten.foldl (rehashStep (2 * m.cap - 1))
          (List.replicate (2 * m.cap) [], 0)).2,
        2 * m.cap, 2 * m.cap - 1⟩ := by
    simp only [growM, hncap, List.foldl_flatten]
  have hhb : ∀ e ∈ m.buckets.flatten, e.hash < 2 ^ 64 := by
    intro e he
    obtain ⟨i, hi, hei⟩ := (mem_buckets_getD_iff m.buckets e).mpr he
    rw [wf.hhash i e hei]
    exact hb e.key
  have h2 : (2 : Nat) ^ (t + 1) = 2 * m.cap := by rw [pow_succ, hcap]; ring
  have hbound : ∀ e ∈ m.buckets.flatten,
      land64 e.hash (2 * m.cap - 1) <
        (List.replicate (2 * m.cap) ([] : List (MEntry K V))).length := by
    intro e he
    have h1 : land64 e.hash (2 * m.cap - 1) = e.hash % (2 * m.cap) := by
      rw [← h2]
      exact land64_two_pow_sub_one e.hash (t + 1) (hhb e he)
    rw [List.length_replicate, h1]
    have hpos : 0 < 2 * m.cap := by
      have := wf.hcap16
      omega
    exact Nat.mod_lt _ hpos
  obtain ⟨hc1, hc2, hc3, hc4⟩ := rehashFold_spec (2 * m.cap - 1) m.buckets.flatten
    (List.replicate (2 * m.cap) [], 0) hbound
  have hbkt : ∀ j, (growM m).buckets.getD j [] =
      (m.buckets.flatten.filter
        (fun e => decide (land64 e.hash (2 * m.cap - 1) = j))).reverse := by
    intro j
    rw [hgrow]
    have hj := hc4 j
    rw [getD_replicate_nil] at hj
    simpa using hj
  have hcount' : (growM m).count = m.count := by
    rw [hgrow]
    dsimp only
    rw [hc2]
    dsimp only
    rw [wf.hcount]
    have hflat : m.buckets.flatten.length = (m.buckets.map List.length).sum :=
      List.length_flatten m.buckets
    omega
  have hkeysnd := keys_flatten_nodup hash m wf
  refine ⟨?_, hcount', by rw [hgrow], by rw [hgrow], hbkt⟩
  constructor
  case hlen =>
    rw [hgrow]
    dsimp only
    rw [hc1]
    simp
  case hcap =>
    refine ⟨t + 1, ?_⟩
    rw [hgrow]
    dsimp only
    omega
  case hcap16 =>
    have := wf.hcap16
    rw [hgrow]
    dsimp only
    omega
  case hmask => rw [hgrow]
  case hcount =>
    rw [hgrow]
    dsimp only
    rw [hc2, hc3]
    have hflat : m.buckets.flatten.length = (m.buckets.map List.length).sum :=
      List.length_flatten m.buckets
    simp
  case hhash =>
    intro j e he
    rw [hbkt j] at he
    rw [List.mem_reverse] at he
    obtain ⟨hee, _⟩ := List.mem_filter.mp he
    obtain ⟨i, hi, hei⟩ := (mem_buckets_getD_iff m.buckets e).mpr hee
    exact wf.hhash i e hei
  case hidx =>
    intro j e he
    rw [hbkt j] at he
    rw [List.mem_reverse] at he
    obtain ⟨_, hpe⟩ := List.mem_filter.mp he
    have hmask : (growM m).mask = 2 * m.cap - 1 := by rw [hgrow]
    rw [hmask]
    exact of_decide_eq_true hpe
  case hnodup =>
    intro j
    rw [hbkt j]
    rw [List.map_reverse, List.nodup_reverse]
    exact ((List.filter_sublist _).map _).nodup hkeysnd

theorem getD_eq_getD {α : Type} (l : List α) (i : Nat) (d d' : α) (h : i < l.length) :
    l.getD i d = l.getD i d' := by
  simp [List.getD_eq_getElem?_getD, List.getElem?_eq_getElem h]

theorem bucket_index_lt (hash : K → Nat) (hb : ∀ k, hash k < 2 ^ 64)
    (m : MapState K V) (wf : MapWF hash m) (k : K) :
    land64 (hash k) m.mask < m.buckets.length := by
  obtain ⟨t, hcap⟩ := wf.hcap
  rw [wf.hmask, hcap, land64_two_pow_sub_one _ t (hb k), wf.hlen, hcap]
  exact Nat.mod_lt _ (Nat.pos_pow_of_pos _ (by omega))

theorem getM_char (hash : K → Nat) (hb : ∀ k, hash k < 2 ^ 64)
    (m : MapState K V) (wf : MapWF hash m) (k : K) (v : V) :
    getM hash m k = some v ↔ ∃ e ∈ m.buckets.flatten, e.key = k ∧ e.val = v := by
  have hcap0 : ¬ m.cap = 0 := by have := wf.hcap16; omega
  have hidxlt := bucket_index_lt hash hb m wf k
  rw [getM, if_neg hcap0,
    chainFind_eq_some_iff hash k v _ (wf.hhash _) (wf.hnodup _)]
  constructor
  · rintro ⟨e, he, hk, hv⟩
    exact ⟨e, (mem_buckets_getD_iff _ _).mp ⟨_, hidxlt, he⟩, hk, hv⟩
  · rintro ⟨e, he, hk, hv⟩
    obtain ⟨i, hi, hei⟩ := (mem_buckets_getD_iff _ _).mpr he
    have hhi := wf.hhash i e hei
    have hxi := wf.hidx i e hei
    have hieq : i = land64 (hash k) m.mask := by rw [← hxi, hhi, hk]
    exact ⟨e, hieq ▸ hei, hk, hv⟩

theorem option_eq_of_some_iff {α : Type} {a b : Option α}
    (h : ∀ v, a = some v ↔ b = some v) : a = b := by
  cases a with
  | some v => exact ((h v).mp rfl).symm
  | none =>
    cases b with
    | some w => exact absurd ((h w).mpr rfl) (by simp)
    | none => rfl

theorem getM_growM (hash : K → Nat) (hb : ∀ k, hash k < 2 ^ 64)
    (m : MapState K V) (wf : MapWF hash m) (k : K) :
    getM hash (growM m) k = getM hash m k := by
  obtain ⟨wf', hcnt, hcap', hmask', hbkt⟩ := growM_spec hash m hb wf
  apply option_eq_of_some_iff
  intro v
  rw [getM_char hash hb (growM m) wf' k v, getM_char hash hb m wf k v]
  constructor
  · rintro ⟨e, he, hk, hv⟩
    obtain ⟨j, hj, hej⟩ := (mem_buckets_getD_iff _ _).mpr he
    rw [hbkt j, List.mem_reverse] at hej
    exact ⟨e, (List.mem_filter.mp hej).1, hk, hv⟩
  · rintro ⟨e, he, hk, hv⟩
    refine ⟨e, (mem_buckets_getD_iff _ _).mp
      ⟨land64 e.hash (2 * m.cap - 1), ?_, ?_⟩, hk, hv⟩
    · obtain ⟨t, hcap⟩ := wf.hcap
      have h2 : (2 : Nat) ^ (t + 1) = 2 * m.cap := by rw [pow_succ, hcap]; ring
      have hhb : e.hash < 2 ^ 64 := by
        obtain ⟨i, hi, hei⟩ := (mem_buckets_getD_iff _ _).mpr he
        rw [wf.hhash i e hei]
        exact hb e.key
      have h1 : land64 e.hash (2 * m.cap - 1) = e.hash % (2 * m.cap) := by
        rw [← h2]
        exact land64_two_pow_sub_one e.hash (t + 1) hhb
      have hlen' : (growM m).buckets.length = 2 * m.cap := by
        rw [wf'.hlen, hcap']
      rw [hlen', h1]
      exact Nat.mod_lt _ (by have := wf.hcap16; omega)
    · rw [hbkt _, List.mem_reverse, List.mem_filter]
      exact ⟨he, by simp⟩

theorem chainFind_isSome_of_mem (h : Nat) (k : K) :
    ∀ (c : List (MEntry K V)) (e : MEntry K V), e ∈ c → e.hash = h → e.key = k →
      chainHas h k c = true := by
  intro c
  induction c with
  | nil => intro e he _ _; simp at he
  | cons e0 rest ih =>
    intro e he hh hk
    rcases List.mem_cons.mp he with rfl | hmem
    · rw [chainHas_cons, if_pos ⟨hh, hk⟩]
    · rw [chainHas_cons]
      split
      · rfl
      · exact ih e hmem hh hk

theorem setEntry_spec (hash : K → Nat) (hb : ∀ k, hash k < 2 ^ 64)
    (m : MapState K V) (wf : MapWF hash m) (k : K) (v : V) :
    MapWF hash (setEntry hash m k v) ∧
    (setEntry hash m k v).cap = m.cap ∧
    ∀ k', getM hash (setEntry hash m k v) k' =
      if k' = k then some v else getM hash m k' := by
  have hcap0 : ¬ m.cap = 0 := by have := wf.hcap16; omega
  have hidxlt := bucket_index_lt hash hb m wf k
  by_cases hhas : chainHas (hash k) k
      (m.buckets.getD (land64 (hash k) m.mask) []) = true
  · -- update in place
    have hse : setEntry hash m k v =
        ⟨m.buckets.set (land64 (hash k) m.mask)
          (chainUpdate (hash k) k v (m.buckets.getD (land64 (hash k) m.mask) [])),
          m.count, m.cap, m.mask⟩ := by
      simp only [setEntry, if_pos hhas]
    have hgd : ∀ i, (setEntry hash m k v).buckets.getD i [] =
        if i = land64 (hash k) m.mask then
          chainUpdate (hash k) k v (m.buckets.getD (land64 (hash k) m.mask) [])
        else m.buckets.getD i [] := by
      intro i
      rw [hse]
      dsimp only
      split
      · rename_i hi
        rw [hi]
        exact getD_set_self _ _ _ _ hidxlt
      · rename_i hi
        exact getD_set_ne _ _ _ (fun hh => hi hh.symm)
    refine ⟨⟨?_, ?_, ?_, ?_, ?_, ?_, ?_, ?_⟩, by rw [hse], ?_⟩
    · rw [hse]; simpa using wf.hlen
    · rw [hse]; exact wf.hcap
    · rw [hse]; exact wf.hcap16
    · rw [hse]; exact wf.hmask
    · have hsum := sum_map_length_set List.length m.buckets (land64 (hash k) m.mask)
        (chainUpdate (hash k) k v (m.buckets.getD (land64 (hash k) m.mask) []))
        hidxlt
      rw [getD_eq_getD m.buckets (land64 (hash k) m.mask)
        (chainUpdate (hash k) k v (m.buckets.getD (land64 (hash k) m.mask) [])) []
        hidxlt] at hsum
      rw [chainUpdate_length] at hsum
      rw [hse]
      dsimp only
      rw [wf.hcount]
      omega
    · intro i e he
      rw [hgd] at he
      by_cases hi : i = land64 (hash k) m.mask
      · rw [if_pos hi] at he
        obtain ⟨e0, he0, hh0, hk0⟩ := mem_chainUpdate _ _ _ _ _ he
        rw [hh0, hk0]
        exact wf.hhash _ e0 he0
      · rw [if_neg hi] at he
        exact wf.hhash i e he
    · intro i e he
      rw [hse]
      dsimp only
      rw [hgd] at he
      by_cases hi : i = land64 (hash k) m.mask
      · rw [if_pos hi] at he
        obtain ⟨e0, he0, hh0, hk0⟩ := mem_chainUpdate _ _ _ _ _ he
        rw [hh0]
        rw [hi]
        exact wf.hidx _ e0 he0
      · rw [if_neg hi] at he
        exact wf.hidx i e he
    · intro i
      rw [hgd]
      by_cases hi : i = land64 (hash k) m.mask
      · rw [if_pos hi]
        have hkeys : (chainUpdate (hash k) k v
            (m.buckets.getD (land64 (hash k) m.mask) [])).map (fun e => e.key) =
            (m.buckets.getD (land64 (hash k) m.mask) []).map (fun e => e.key) := by
          have hp := chainUpdate_hashKey (hash k) k v
            (m.buckets.getD (land64 (hash k) m.mask) [])
          have hps := congrArg (List.map Prod.snd) hp
          simpa [List.map_map, Function.comp] using hps
        rw [hkeys]
        exact wf.hnodup _
      · rw [if_neg hi]
        exact wf.hnodup i
    · intro k'
      have hcap0' : ¬ (setEntry hash m k v).cap = 0 := by rw [hse]; exact hcap0
      have hmask' : (setEntry hash m k v).mask = m.mask := by rw [hse]
      rw [getM, if_neg hcap0', hmask', hgd]
      by_cases hk' : k' = k
      · subst hk'
        rw [if_pos rfl, if_pos rfl]
        exact chainFind_chainUpdate_self _ _ _ _ hhas
      · rw [if_neg hk', getM, if_neg hcap0]
        by_cases hi : land64 (hash k') m.mask = land64 (hash k) m.mask
        · rw [if_pos hi, chainFind_chainUpdate_ne _ _ _ _ _ (fun hh => hk' hh.symm), hi]
        · rw [if_neg hi]
  · -- prepend a fresh entry
    have hse : setEntry hash m k v =
        ⟨m.buckets.set (land64 (hash k) m.mask)
          (⟨hash k, k, v⟩ :: m.buckets.getD (land64 (hash k) m.mask) []),
          m.count + 1, m.cap, m.mask⟩ := by
      simp only [setEntry, if_neg hhas]
    have hgd : ∀ i, (setEntry hash m k v).buckets.getD i [] =
        if i = land64 (hash k) m.mask then
          ⟨hash k, k, v⟩ :: m.buckets.getD (land64 (hash k) m.mask) []
        else m.buckets.getD i [] := by
      intro i
      rw [hse]
      dsimp only
      split
      · rename_i hi
        rw [hi]
        exact getD_set_self _ _ _ _ hidxlt
      · rename_i hi
        exact getD_set_ne _ _ _ (fun hh => hi hh.symm)
    have hnotin : ∀ e ∈ m.buckets.getD (land64 (hash k) m.mask) [], e.key ≠ k := by
      intro e he hek
      have hh : e.hash = hash k := by
        rw [wf.hhash _ e he, hek]
      exact hhas (chainFind_isSome_of_mem (hash k) k _ e he hh hek)
    refine ⟨⟨?_, ?_, ?_, ?_, ?_, ?_, ?_, ?_⟩, by rw [hse], ?_⟩
    · rw [hse]; simpa using wf.hlen
    · rw [hse]; exact wf.hcap
    · rw [hse]; exact wf.hcap16
    · rw [hse]; exact wf.hmask
    · have hsum := sum_map_length_set List.length m.buckets (land64 (hash k) m.mask)
        (⟨hash k, k, v⟩ :: m.buckets.getD (land64 (hash k) m.mask) []) hidxlt
      rw [getD_eq_getD m.buckets (land64 (hash k) m.mask)
        (⟨hash k, k, v⟩ :: m.buckets.getD (land64 (hash k) m.mask) []) []
        hidxlt] at hsum
      rw [hse]
      dsimp only
      rw [wf.hcount]
      simp only [List.length_cons] at hsum
      omega
    · intro i e he
      rw [hgd] at he
      by_cases hi : i = land64 (hash k) m.mask
      · rw [if_pos hi] at he
        rcases List.mem_cons.mp he with rfl | hmem
        · rfl
        · exact wf.hhash _ e hmem
      · rw [if_neg hi] at he
        exact wf.hhash i e he
    · intro i e he
      rw [hse]
      dsimp only
      rw [hgd] at he
      by_cases hi : i = land64 (hash k) m.mask
      · rw [if_pos hi] at he
        rcases List.mem_cons.mp he with rfl | hmem
        · rw [hi]
        · rw [hi]
          exact wf.hidx _ e hmem
      · rw [if_neg hi] at he
        exact wf.hidx i e he
    · intro i
      rw [hgd]
      by_cases hi : i = land64 (hash k) m.mask
      · rw [if_pos hi]
        rw [List.map_cons, List.nodup_cons]
        refine ⟨?_, wf.hnodup _⟩
        intro hmem
        obtain ⟨e, he, hek⟩ := List.mem_map.mp hmem
        exact hnotin e he hek
      · rw [if_neg hi]
        exact wf.hnodup i
    · intro k'
      have hcap0' : ¬ (setEntry hash m k v).cap = 0 := by rw [hse]; exact hcap0
      have hmask' : (setEntry hash m k v).mask = m.mask := by rw [hse]
      rw [getM, if_neg hcap0', hmask', hgd]
      by_cases hk' : k' = k
      · subst hk'
        rw [if_pos rfl, if_pos rfl]
        simp [chainFind]
      · rw [if_neg hk', getM, if_neg hcap0]
        by_cases hi : land64 (hash k') m.mask = land64 (hash k) m.mask
        · rw [if_pos hi]
          have hne : ¬ ((⟨hash k, k, v⟩ : MEntry K V).hash = hash k' ∧
              (⟨hash k, k, v⟩ : MEntry K V).key = k') := by
            rintro ⟨_, hkk⟩
            exact hk' (by simp at hkk; rw [hkk])
          simp only [chainFind, if_neg hne]
          rw [hi]
        · rw [if_neg hi]

theorem setM_spec (hash : K → Nat) (hb : ∀ k, hash k < 2 ^ 64)
    (m : MapState K V) (wf : MapWF hash m) (k : K) (v : V) :
    MapWF hash (setM hash m k v) ∧
    ∀ k', getM hash (setM hash m k v) k' =
      if k' = k then some v else getM hash m k' := by
  by_cases hth : m.cap * 3 / 4 < m.count
  · have hsm : setM hash m k v = setEntry hash (growM m) k v := by
      simp only [setM, if_pos hth]
    obtain ⟨wf', _, _, _, _⟩ := growM_spec hash m hb wf
    obtain ⟨hwf2, _, hget2⟩ := setEntry_spec hash hb (growM m) wf' k v
    rw [hsm]
    refine ⟨hwf2, ?_⟩
    intro k'
    rw [hget2 k']
    by_cases hk' : k' = k
    · simp [hk']
    · rw [if_neg hk', if_neg hk']
      exact getM_growM hash hb m wf k'
  · have hsm : setM hash m k v = setEntry hash m k v := by
      simp only [setM, if_neg hth]
    rw [hsm]
    obtain ⟨hwf2, _, hget2⟩ := setEntry_spec hash hb m wf k v
    exact ⟨hwf2, hget2⟩

theorem newMap_WF (hash : K → Nat) : MapWF hash (newMap K V) := by
  refine ⟨by simp [newMap], ⟨4, rfl⟩, by simp [newMap], rfl, by simp [newMap], ?_, ?_, ?_⟩
  · intro i e he
    rw [show (newMap K V).buckets = List.replicate 16 [] from rfl,
      getD_replicate_nil] at he
    exact absurd he (by simp)
  · intro i e he
    rw [show (newMap K V).buckets = List.replicate 16 [] from rfl,
      getD_replicate_nil] at he
    exact absurd he (by simp)
  · intro i
    rw [show (newMap K V).buckets = List.replicate 16 [] from rfl,
      getD_replicate_nil]
    simp

theorem lastValFrom_congr (g1 g2 : K → Option V) (ops : List (K × V)) (k : K)
    (h : g1 k = g2 k) : lastValFrom g1 ops k = lastValFrom g2 ops k := by
  simp [lastValFrom, h]

theorem foldSets_spec (hash : K → Nat) (hb : ∀ k, hash k < 2 ^ 64) :
    ∀ (ops : List (K × V)) (m : MapState K V), MapWF hash m →
      MapWF hash (ops.foldl (fun m p => setM hash m p.1 p.2) m) ∧
      ∀ k, getM hash (ops.foldl (fun m p => setM hash m p.1 p.2) m) k =
        lastValFrom (getM hash m) ops k := by
  intro ops
  induction ops with
  | nil => intro m wf; exact ⟨wf, fun k => rfl⟩
  | cons p ops ih =>
    intro m wf
    obtain ⟨wf1, hget1⟩ := setM_spec hash hb m wf p.1 p.2
    obtain ⟨wf2, hget2⟩ := ih (setM hash m p.1 p.2) wf1
    rw [List.foldl_cons]
    refine ⟨wf2, ?_⟩
    intro k
    rw [hget2 k]
    simp only [lastValFrom, List.foldl_cons]
    congr 1
    rw [hget1 k]
    by_cases hk : k = p.1
    · rw [if_pos hk, if_pos hk.symm]
    · rw [if_neg hk, if_neg (fun h => hk h.symm)]

theorem key_mem_keysM (m : MapState K V) (i : Nat) (e : MEntry K V)
    (he : e ∈ m.buckets.getD i []) : e.key ∈ keysM m := by
  rcases Nat.lt_or_ge i m.buckets.length with hi | hi
  · have hbi : m.buckets.getD i [] = m.buckets[i] := by
      simp [List.getD_eq_getElem?_getD, List.getElem?_eq_getElem hi]
    rw [hbi] at he
    apply List.mem_flatten.mpr
    exact ⟨m.buckets[i].map (fun e => e.key),
      List.mem_map_of_mem _ (List.getElem_mem hi), List.mem_map_of_mem _ he⟩
  · have hnil : m.buckets.getD i [] = [] := by
      simp [List.getD_eq_getElem?_getD, List.getElem?_eq_none hi]
    rw [hnil] at he
    exact absurd he (by simp)

theorem getM_not_mem (hash : K → Nat) (m : MapState K V) (k : K)
    (habs : k ∉ keysM m) : getM hash m k = none := by
  by_cases hcap : m.cap = 0
  · simp [getM, hcap]
  · rw [getM, if_neg hcap]
    exact chainFind_eq_none _ _ _ (fun e he hek => habs (hek ▸ key_mem_keysM m _ e he))

theorem deleteM_not_mem (hash : K → Nat) (m : MapState K V) (k : K)
    (habs : k ∉ keysM m) : deleteM hash m k = m := by
  by_cases hcap : m.cap = 0
  · simp [deleteM, hcap]
  · have hnone : chainFind (hash k) k
        (m.buckets.getD (land64 (hash k) m.mask) []) = none :=
      chainFind_eq_none _ _ _ (fun e he hek => habs (hek ▸ key_mem_keysM m _ e he))
    have hhas : chainHas (hash k) k
        (m.buckets.getD (land64 (hash k) m.mask) []) = false := by
      rw [chainHas, hnone]
      rfl
    simp only [deleteM, if_neg hcap, hhas]
    simp

end MapLemmas

/-- Claim C3: for every hash function and every sequence of `Set` calls —
in particular those that drive `count` over the `0.75` load factor and so
trigger `grow` — the entry count immediately after `grow` equals the
count immediately before, and every key set earlier is still retrievable
by `Get` with the value most recently set for it. -/
theorem map_grow_preserves_entries {K V : Type} [DecidableEq K] (hash : K → Nat)
    (hb : ∀ k, hash k < 2 ^ 64) (ops : List (K × V)) :
    (growM (runSets hash ops)).count = (runSets hash ops).count ∧
    ∀ k v, lastVal ops k = some v → getM hash (runSets hash ops) k = some v := by
  obtain ⟨wf, hget⟩ := foldSets_spec hash hb ops (newMap K V) (newMap_WF hash)
  constructor
  · exact (growM_spec hash _ hb wf).2.1
  · intro k v hlast
    rw [runSets, hget k]
    have hnone : getM hash (newMap K V) k = none :=
      getM_not_mem hash _ k (by rw [show keysM (newMap K V) = [] from rfl]; simp)
    rw [lastValFrom_congr (getM hash (newMap K V)) (fun _ => none) ops k hnone]
    exact hlast

theorem map_grow_preserves_entries_witness :
    (∀ k : Nat, (fun k : Nat => k % 2 ^ 64) k < 2 ^ 64) ∧
    lastVal ((List.range 14).map (fun i => (i, i + 100))) 5 = some 105 ∧
    ((growM (runSets (fun k : Nat => k % 2 ^ 64)
        ((List.range 14).map (fun i => (i, i + 100))))).count =
      (runSets (fun k : Nat => k % 2 ^ 64)
        ((List.range 14).map (fun i => (i, i + 100)))).count ∧
      getM (fun k : Nat => k % 2 ^ 64)
        (runSets (fun k : Nat => k % 2 ^ 64)
          ((List.range 14).map (fun i => (i, i + 100)))) 5 = some 105) :=
  ⟨fun k => Nat.mod_lt _ (by norm_num), by decide,
    (map_grow_preserves_entries (fun k : Nat => k % 2 ^ 64)
      (fun k => Nat.mod_lt _ (by norm_num))
      ((List.range 14).map (fun i => (i, i + 100)))).1,
    (map_grow_preserves_entries (fun k : Nat => k % 2 ^ 64)
      (fun k => Nat.mod_lt _ (by norm_num))
      ((List.range 14).map (fun i => (i, i + 100)))).2 5 105 (by decide)⟩

/-- Claim C7: for every hash-map state and every key `k` not stored in
the map, `Get(k)` returns Go's `(zero value, false)` rather than failing,
and `Delete(k)` leaves the map — its entry count and every stored
key-value pair — unchanged. -/
theorem map_absent_key_behavior {K V : Type} [DecidableEq K] [Inhabited V]
    (hash : K → Nat) (m : MapState K V) (k : K) (habs : k ∉ keysM m) :
    getMPair hash m k = (default, false) ∧ deleteM hash m k = m := by
  refine ⟨?_, deleteM_not_mem hash m k habs⟩
  rw [getMPair, getM_not_mem hash m k habs]

theorem map_absent_key_behavior_witness :
    (3 : Nat) ∉ keysM (newMap Nat Nat) ∧
    (getMPair (fun n : Nat => n) (newMap Nat Nat) 3 = (default, false) ∧
      deleteM (fun n : Nat => n) (newMap Nat Nat) 3 = newMap Nat Nat) :=
  ⟨by decide,
    map_absent_key_behavior (fun n : Nat => n) (newMap Nat Nat) 3 (by decide)⟩

/-! ## Lemmas about the skip list -/

section SLLemmas

variable {K V : Type} [LinearOrder K] [Inhabited K] [Inhabited V]

theorem isChain_nil (s : SLState K V) (i : Nat) (p : Option Nat) :
    IsChain s i p [] ↔ fwdAt s p i = none := Iff.rfl

theorem isChain_cons (s : SLState K V) (i : Nat) (p : Option Nat) (n : Nat)
    (L : List Nat) :
    IsChain s i p (n :: L) ↔ fwdAt s p i = some n ∧ IsChain s i (some n) L := Iff.rfl

theorem chainSeg_nil (s : SLState K V) (i : Nat) (p q : Option Nat) :
    ChainSeg s i p [] q ↔ q = p := Iff.rfl

theorem chainSeg_cons (s : SLState K V) (i : Nat) (p q : Option Nat) (n : Nat)
    (L : List Nat) :
    ChainSeg s i p (n :: L) q ↔ fwdAt s p i = some n ∧ ChainSeg s i (some n) L q :=
  Iff.rfl

theorem endPos_append (p : Option Nat) (A B : List Nat) :
    endPos p (A ++ B) = endPos (endPos p A) B := by
  induction A generalizing p with
  | nil => rfl
  | cons a A ih => simp [endPos, ih]

theorem endPos_concat (p : Option Nat) (A : List Nat) (n : Nat) :
    endPos p (A ++ [n]) = some n := by
  rw [endPos_append]
  rfl

theorem endPos_mem (p : Option Nat) (A : List Nat) :
    endPos p A = p ∨ ∃ n ∈ A, endPos p A = some n := by
  induction A generalizing p with
  | nil => exact Or.inl rfl
  | cons a A ih =>
    rcases ih (some a) with h | ⟨n, hn, h⟩
    · exact Or.inr ⟨a, by simp, by simp [endPos, h]⟩
    · exact Or.inr ⟨n, by simp [hn], by simp [endPos, h]⟩

theorem isChain_iff_seg (s : SLState K V) (i : Nat) :
    ∀ (L : List Nat) (p : Option Nat),
      IsChain s i p L ↔
        ChainSeg s i p L (endPos p L) ∧ fwdAt s (endPos p L) i = none := by
  intro L
  induction L with
  | nil => intro p; simp [isChain_nil, chainSeg_nil, endPos]
  | cons n L ih =>
    intro p
    rw [isChain_cons, chainSeg_cons]
    rw [show endPos p (n :: L) = endPos (some n) L from rfl]
    rw [ih (some n)]
    tauto

theorem isChain_suffix (s : SLState K V) (i : Nat) :
    ∀ (A : List Nat) (p : Option Nat) (n : Nat) (B : List Nat),
      IsChain s i p (A ++ n :: B) → IsChain s i (some n) B := by
  intro A
  induction A with
  | nil => intro p n B h; exact h.2
  | cons a A ih => intro p n B h; exact ih (some a) n B h.2

theorem isChain_congr (s2 s : SLState K V) (i : Nat) :
    ∀ (L : List Nat) (p : Option Nat),
      fwdAt s2 p i = fwdAt s p i →
      (∀ n ∈ L, fwdAt s2 (some n) i = fwdAt s (some n) i) →
      IsChain s i p L → IsChain s2 i p L := by
  intro L
  induction L with
  | nil => intro p hp _ h; rw [isChain_nil, hp]; exact h
  | cons n L ih =>
    intro p hp hL h
    exact ⟨hp.trans h.1,
      ih (some n) (hL n (by simp)) (fun m hm => hL m (by simp [hm])) h.2⟩

theorem isChain_graft (s2 s : SLState K V) (i : Nat) :
    ∀ (A : List Nat) (p : Option Nat) (T : List Nat),
      ChainSeg s i p A (endPos p A) →
      A.Nodup → (∀ n ∈ A, some n ≠ p) →
      (∀ x, (x = p ∨ ∃ n ∈ A, x = some n) → x ≠ endPos p A →
        fwdAt s2 x i = fwdAt s x i) →
      IsChain s2 i (endPos p A) T →
      IsChain s2 i p (A ++ T) := by
  intro A
  induction A with
  | nil => intro p T _ _ _ _ ht; exact ht
  | cons a A ih =>
    intro p T hseg hnd hp hagree ht
    have hend : ∃ m, endPos p (a :: A) = some m ∧ m ∈ a :: A := by
      rcases endPos_mem (some a) A with h | ⟨n, hn, h⟩
      · exact ⟨a, by simp [endPos, h], by simp⟩
      · exact ⟨n, by simp [endPos, h], by simp [hn]⟩
    obtain ⟨m, hm, hmmem⟩ := hend
    rw [List.cons_append, isChain_cons]
    constructor
    · have hne : p ≠ endPos p (a :: A) := by
        rw [hm]
        exact fun hh => hp m hmmem hh.symm
      rw [hagree p (Or.inl rfl) hne]
      exact hseg.1
    · apply ih (some a) T hseg.2 (List.Nodup.of_cons hnd)
      · intro n hn hna
        have : n = a := by simpa using hna
        subst this
        exact (List.nodup_cons.mp hnd).1 hn
      · intro x hx hxe
        refine hagree x ?_ hxe
        rcases hx with rfl | ⟨n, hn, rfl⟩
        · exact Or.inr ⟨a, by simp, rfl⟩
        · exact Or.inr ⟨n, by simp [hn], rfl⟩
      · exact ht

theorem chainIds_of_isChain (s : SLState K V) (i : Nat) :
    ∀ (M : List Nat) (p : Option Nat) (fuel : Nat),
      IsChain s i p M → M.length ≤ fuel → chainIds s i fuel p = M := by
  intro M
  induction M with
  | nil =>
    intro p fuel h _
    have h' : fwdAt s p i = none := h
    cases fuel with
    | zero => rfl
    | succ fuel => simp [chainIds, h']
  | cons n M ih =>
    intro p fuel h hf
    cases fuel with
    | zero => simp at hf
    | succ fuel =>
      simp only [chainIds, h.1]
      rw [ih (some n) fuel h.2 (by simpa using hf)]

theorem advance_spec (s : SLState K V) (key : K) (i : Nat) :
    ∀ (M : List Nat) (p : Option Nat) (fuel : Nat),
      IsChain s i p M → M.length ≤ fuel →
      ∃ A B, M = A ++ B ∧
        advance s key i fuel p = endPos p A ∧
        (∀ n ∈ A, keyAt s n < key) ∧
        IsChain s i (endPos p A) B ∧
        (∀ b, B.head? = some b → ¬ keyAt s b < key) := by
  intro M
  induction M with
  | nil =>
    intro p fuel h _
    have h' : fwdAt s p i = none := h
    refine ⟨[], [], by simp, ?_, by simp, h, by simp⟩
    cases fuel with
    | zero => rfl
    | succ fuel => simp [advance, h', endPos]
  | cons n M ih =>
    intro p fuel h hf
    obtain ⟨h1, h2⟩ := h
    cases fuel with
    | zero => simp at hf
    | succ fuel =>
      by_cases hk : keyAt s n < key
      · obtain ⟨A, B, hM, hadv, hAk, hch, hB⟩ := ih (some n) fuel h2 (by simpa using hf)
        refine ⟨n :: A, B, by simp [hM], ?_, ?_, hch, hB⟩
        · rw [show advance s key i (fuel + 1) p = advance s key i fuel (some n) from by
            simp [advance, h1, hk]]
          exact hadv
        · intro m hm
          rcases List.mem_cons.mp hm with rfl | hm'
          · exact hk
          · exact hAk m hm'
      · refine ⟨[], n :: M, by simp, by simp [advance, h1, hk, endPos], by simp,
          ⟨h1, h2⟩, ?_⟩
        intro b hb
        have : b = n := by simpa using hb.symm
        subst this
        exact hk

theorem pairwise_lt_nodup (f : Nat → K) (L : List Nat)
    (h : List.Pairwise (· < ·) (L.map f)) : L.Nodup :=
  List.Nodup.of_map f (h.imp ne_of_lt)

theorem length_le_of_nodup_lt (L : List Nat) (N : Nat) (hnd : L.Nodup)
    (hlt : ∀ n ∈ L, n < N) : L.length ≤ N := by
  classical
  have hsub : L.toFinset ⊆ Finset.range N := fun x hx =>
    Finset.mem_range.mpr (hlt x (List.mem_toFinset.mp hx))
  have hcard := Finset.card_le_card hsub
  rw [List.toFinset_card_of_nodup hnd] at hcard
  simpa using hcard

theorem getD_append_length {α : Type} (l : List α) (x d : α) :
    (l ++ [x]).getD l.length d = x := by
  simp [List.getD_eq_getElem?_getD, List.getElem?_append_right (le_refl l.length)]

theorem getD_append_length' {α : Type} (l : List α) (x d : α) (j : Nat)
    (h : j = l.length) : (l ++ [x]).getD j d = x := by
  rw [h]
  exact getD_append_length l x d

theorem chainL_zero (s : SLState K V) (L : List Nat) : chainL s L 0 = L := by
  simp [chainL]

theorem chainL_mem {s : SLState K V} {L : List Nat} {i : Nat} {n : Nat} :
    n ∈ chainL s L i ↔ n ∈ L ∧ i ≤ (nodeAt s n).lvl := by
  simp [chainL]

theorem chainL_mono_mem {s : SLState K V} {L : List Nat} {i j : Nat} {n : Nat}
    (hij : i ≤ j) (hn : n ∈ chainL s L j) : n ∈ chainL s L i := by
  rw [chainL_mem] at hn ⊢
  exact ⟨hn.1, le_trans hij hn.2⟩

theorem chainL_sorted {s : SLState K V} {L : List Nat} (inv : SLInv s L) (i : Nat) :
    List.Pairwise (· < ·) ((chainL s L i).map (keyAt s)) :=
  List.Pairwise.sublist (List.Sublist.map _ (List.filter_sublist L)) inv.hsorted

theorem slinv_nodup {s : SLState K V} {L : List Nat} (inv : SLInv s L) : L.Nodup :=
  pairwise_lt_nodup (keyAt s) L inv.hsorted

theorem slinv_length_le {s : SLState K V} {L : List Nat} (inv : SLInv s L) :
    L.length ≤ s.nodes.length :=
  length_le_of_nodup_lt L _ (slinv_nodup inv) inv.hvalid

theorem chainL_length_le {s : SLState K V} {L : List Nat} (inv : SLInv s L) (i : Nat) :
    (chainL s L i).length ≤ s.nodes.length :=
  le_trans (List.Sublist.length_le (List.filter_sublist L)) (slinv_length_le inv)

theorem chainL_empty_of_gt {s : SLState K V} {L : List Nat} (inv : SLInv s L)
    {j : Nat} (hj : s.level < j) : chainL s L j = [] := by
  rw [chainL, List.filter_eq_nil_iff]
  intro n hn
  have := inv.hlvl n hn
  simp only [decide_eq_true_eq]
  omega

theorem onchain_split {s : SLState K V} {L : List Nat} (inv : SLInv s L)
    (key : K) (j : Nat) (hj : j ≤ 16) (p : Option Nat)
    (hgood : GoodEntry s L key j p) :
    ∃ A M, chainL s L j = A ++ M ∧ p = endPos none A ∧
      (∀ n ∈ A, keyAt s n < key) ∧ IsChain s j p M := by
  rcases hgood with rfl | ⟨m, rfl, hm, hkm⟩
  · exact ⟨[], chainL s L j, by simp, rfl, by simp, inv.hchain j hj⟩
  · obtain ⟨C1, C2, hC⟩ := List.append_of_mem hm
    refine ⟨C1 ++ [m], C2, by simp [hC], (endPos_concat none C1 m).symm, ?_, ?_⟩
    · intro n hn
      rcases List.mem_append.mp hn with hn1 | hn2
      · have hs := chainL_sorted inv j
        rw [hC, List.map_append, List.pairwise_append] at hs
        have hlt : keyAt s n < keyAt s m :=
          hs.2.2 (keyAt s n) (List.mem_map_of_mem _ hn1) (keyAt s m) (by simp)
        exact lt_trans hlt hkm
      · have : n = m := by simpa using hn2
        subst this
        exact hkm
    · have hch := inv.hchain j hj
      rw [hC] at hch
      have := isChain_suffix s j C1 none m C2 hch
      exact (endPos_concat none C1 m) ▸ this

theorem descend_spec {s : SLState K V} {L : List Nat} (inv : SLInv s L) (key : K) :
    ∀ i, i ≤ s.level → ∀ p, GoodEntry s L key i p →
      (descend s key i p).length = i + 1 ∧
      ∀ j, j ≤ i → SplitAt s L key j ((descend s key i p).getD j none) := by
  intro i
  induction i with
  | zero =>
    intro _ p hgood
    obtain ⟨A, M, hAM, hp, hAk, hch⟩ := onchain_split inv key 0 (by omega) p hgood
    have hMlen : M.length ≤ s.nodes.length := by
      have h1 := chainL_length_le inv 0
      rw [hAM] at h1
      simp at h1
      omega
    obtain ⟨A1, B, hM, hadv, hA1k, hch1, hB⟩ :=
      advance_spec s key 0 M p s.nodes.length hch hMlen
    refine ⟨rfl, ?_⟩
    intro j hj
    have hj0 : j = 0 := by omega
    subst hj0
    rw [show (descend s key 0 p).getD 0 none = advance s key 0 s.nodes.length p
      from rfl]
    refine ⟨A ++ A1, B, by rw [hAM, hM, List.append_assoc], ?_, ?_, ?_, hB⟩
    · rw [hadv, hp, endPos_append]
    · intro n hn
      rcases List.mem_append.mp hn with h1 | h2
      · exact hAk n h1
      · exact hA1k n h2
    · rw [hadv]
      rw [hp] at hch1 ⊢
      exact hch1
  | succ i ih =>
    intro hi p hgood
    obtain ⟨A, M, hAM, hp, hAk, hch⟩ := onchain_split inv key (i + 1)
      (by have := inv.hlev; omega) p hgood
    have hMlen : M.length ≤ s.nodes.length := by
      have h1 := chainL_length_le inv (i + 1)
      rw [hAM] at h1
      simp at h1
      omega
    obtain ⟨A1, B, hM, hadv, hA1k, hch1, hB⟩ :=
      advance_spec s key (i + 1) M p s.nodes.length hch hMlen
    have hsplit : SplitAt s L key (i + 1) (advance s key (i + 1) s.nodes.length p) := by
      refine ⟨A ++ A1, B, by rw [hAM, hM, List.append_assoc], ?_, ?_, ?_, hB⟩
      · rw [hadv, hp, endPos_append]
      · intro n hn
        rcases List.mem_append.mp hn with h1 | h2
        · exact hAk n h1
        · exact hA1k n h2
      · rw [hadv]
        rw [hp] at hch1 ⊢
        exact hch1
    have hgood' : GoodEntry s L key i (advance s key (i + 1) s.nodes.length p) := by
      rw [hadv, hp, ← endPos_append]
      rcases endPos_mem none (A ++ A1) with h | ⟨n, hn, h⟩
      · exact Or.inl h
      · refine Or.inr ⟨n, h, ?_, ?_⟩
        · refine chainL_mono_mem (Nat.le_succ i) ?_
          rw [hAM, hM]
          rcases List.mem_append.mp hn with h1 | h2
          · exact List.mem_append.mpr (Or.inl h1)
          · exact List.mem_append.mpr (Or.inr (List.mem_append.mpr (Or.inl h2)))
        · rcases List.mem_append.mp hn with h1 | h2
          · exact hAk n h1
          · exact hA1k n h2
    obtain ⟨hlen', hspec'⟩ := ih (by omega) _ hgood'
    rw [show descend s key (i + 1) p =
      descend s key i (advance s key (i + 1) s.nodes.length p) ++
        [advance s key (i + 1) s.nodes.length p] from rfl]
    constructor
    · simp [hlen']
    · intro j hj
      rcases Nat.lt_or_ge j (i + 1) with hji | hji
      · rw [List.getD_append _ _ _ _ (by omega)]
        exact hspec' j (by omega)
      · have hjeq : j = i + 1 := by omega
        subst hjeq
        rw [getD_append_length' _ _ _ _ (by omega)]
        exact hsplit

theorem updateVec_spec {s : SLState K V} {L : List Nat} (inv : SLInv s L) (key : K) :
    ∀ j, j ≤ 16 → SplitAt s L key j ((updateVec s key).getD j none) := by
  intro j hj
  have hbase := descend_spec inv key s.level (le_refl _) none (Or.inl rfl)
  rcases le_or_lt j s.level with hjl | hjl
  · exact hbase.2 j hjl
  · rw [updateVec, List.getD_eq_default _ _ (by omega)]
    · refine ⟨[], [], by simp [chainL_empty_of_gt inv hjl], rfl, by simp, ?_, by simp⟩
      have hc := inv.hchain j hj
      rw [chainL_empty_of_gt inv hjl] at hc
      exact hc

theorem setFwd_level (s : SLState K V) (p : Option Nat) (i : Nat) (q : Option Nat) :
    (setFwd s p i q).level = s.level := by
  cases p <;> rfl

theorem setFwd_nodesLen (s : SLState K V) (p : Option Nat) (i : Nat) (q : Option Nat) :
    (setFwd s p i q).nodes.length = s.nodes.length := by
  cases p with
  | none => rfl
  | some n => simp [setFwd]

theorem setFwd_headLen (s : SLState K V) (p : Option Nat) (i : Nat) (q : Option Nat) :
    (setFwd s p i q).headFwd.length = s.headFwd.length := by
  cases p with
  | none => simp [setFwd]
  | some n => rfl

theorem nodeAt_setFwd (s : SLState K V) (p : Option Nat) (i : Nat) (q : Option Nat)
    (m : Nat) :
    (nodeAt (setFwd s p i q) m).key = (nodeAt s m).key ∧
    (nodeAt (setFwd s p i q) m).val = (nodeAt s m).val ∧
    (nodeAt (setFwd s p i q) m).lvl = (nodeAt s m).lvl ∧
    (nodeAt (setFwd s p i q) m).fwd =
      (if p = some m then (nodeAt s m).fwd.set i q else (nodeAt s m).fwd) := by
  cases p with
  | none => simp [setFwd, nodeAt]
  | some n =>
    by_cases hmn : n = m
    · subst hmn
      rcases Nat.lt_or_ge n s.nodes.length with hn | hn
      · have hget : nodeAt (setFwd s (some n) i q) n =
            ⟨(nodeAt s n).key, (nodeAt s n).val, (nodeAt s n).lvl,
              (nodeAt s n).fwd.set i q⟩ := by
          show (setFwd s (some n) i q).nodes.getD n default = _
          simp only [setFwd]
          exact getD_set_self _ _ _ _ hn
        rw [hget, if_pos rfl]
        exact ⟨rfl, rfl, rfl, rfl⟩
      · have hset : setFwd s (some n) i q = s := by
          simp only [setFwd]
          rw [List.set_eq_of_length_le hn]
        have hdef : nodeAt s n = default := by
          simp [nodeAt, List.getD_eq_getElem?_getD, List.getElem?_eq_none hn]
        rw [hset, if_pos rfl, hdef]
        exact ⟨rfl, rfl, rfl, rfl⟩
    · have hget : nodeAt (setFwd s (some n) i q) m = nodeAt s m := by
        simp only [setFwd, nodeAt]
        exact getD_set_ne _ _ _ hmn
      simp [hget, hmn]

theorem fwdAt_setFwd (s : SLState K V) (p : Option Nat) (i : Nat) (q : Option Nat)
    (hv : slotValid s p i) (p' : Option Nat) (i' : Nat) :
    fwdAt (setFwd s p i q) p' i' =
      if p' = p ∧ i' = i then q else fwdAt s p' i' := by
  cases p with
  | none =>
    cases p' with
    | none =>
      simp only [fwdAt, setFwd]
      by_cases hii : i' = i
      · subst hii
        rw [if_pos (show True ∧ i' = i' from ⟨trivial, rfl⟩)]
        exact getD_set_self _ _ _ _ hv
      · rw [if_neg (by simp [hii])]
        exact getD_set_ne _ _ _ (fun hh => hii hh.symm)
    | some n' =>
      rw [if_neg (by simp)]
      simp only [fwdAt]
      have := (nodeAt_setFwd s none i q n').2.2.2
      rw [this, if_neg (by simp)]
  | some n =>
    cases p' with
    | none =>
      rw [if_neg (by simp)]
      simp only [fwdAt, setFwd]
    | some n' =>
      have hfwd := (nodeAt_setFwd s (some n) i q n').2.2.2
      by_cases hnn : n' = n
      · subst hnn
        simp only [fwdAt]
        rw [hfwd, if_pos rfl]
        by_cases hii : i' = i
        · subst hii
          rw [if_pos (show True ∧ i' = i' from ⟨trivial, rfl⟩)]
          exact getD_set_self _ _ _ _ hv.2
        · rw [if_neg (by simp [hii])]
          exact getD_set_ne _ _ _ (fun hh => hii hh.symm)
      · rw [if_neg (fun hc => hnn (Option.some.inj hc.1))]
        simp only [fwdAt]
        rw [hfwd, if_neg (fun hc => hnn (Option.some.inj hc).symm)]

theorem slotValid_transfer (s2 s : SLState K V) (p : Option Nat) (i : Nat)
    (hh : s2.headFwd.length = s.headFwd.length)
    (hn : s2.nodes.length = s.nodes.length)
    (hf : ∀ m, (nodeAt s2 m).fwd.length = (nodeAt s m).fwd.length)
    (hv : slotValid s p i) : slotValid s2 p i := by
  cases p with
  | none =>
    have hv' : i < s.headFwd.length := hv
    exact show i < s2.headFwd.length by omega
  | some n =>
    have hv1 : n < s.nodes.length := hv.1
    have hv2 : i < (nodeAt s n).fwd.length := hv.2
    exact ⟨by omega, by rw [hf n]; exact hv2⟩

theorem spliceAll_spec (upd : List (Option Nat)) (newId : Nat) :
    ∀ (ls : List Nat) (s : SLState K V),
      ls.Nodup →
      (∀ i ∈ ls, slotValid s (upd.getD i none) i) →
      (∀ p' i', fwdAt (spliceAll upd newId s ls) p' i' =
        if i' ∈ ls ∧ p' = upd.getD i' none then some newId else fwdAt s p' i') ∧
      (spliceAll upd newId s ls).nodes.length = s.nodes.length ∧
      (spliceAll upd newId s ls).headFwd.length = s.headFwd.length ∧
      (spliceAll upd newId s ls).level = s.level ∧
      (∀ m, (nodeAt (spliceAll upd newId s ls) m).key = (nodeAt s m).key ∧
        (nodeAt (spliceAll upd newId s ls) m).val = (nodeAt s m).val ∧
        (nodeAt (spliceAll upd newId s ls) m).lvl = (nodeAt s m).lvl ∧
        (nodeAt (spliceAll upd newId s ls) m).fwd.length =
          (nodeAt s m).fwd.length) := by
  intro ls
  induction ls with
  | nil =>
    intro s _ _
    exact ⟨fun p' i' => by simp [spliceAll], rfl, rfl, rfl, fun m => ⟨rfl, rfl, rfl, rfl⟩⟩
  | cons i rest ih =>
    intro s hnd hval
    have hvi : slotValid s (upd.getD i none) i := hval i (by simp)
    have hmeta := nodeAt_setFwd s (upd.getD i none) i (some newId)
    have hflen : ∀ m, (nodeAt (setFwd s (upd.getD i none) i (some newId)) m).fwd.length =
        (nodeAt s m).fwd.length := by
      intro m
      rw [(nodeAt_setFwd s (upd.getD i none) i (some newId) m).2.2.2]
      split <;> simp
    have hval' : ∀ j ∈ rest, slotValid
        (setFwd s (upd.getD i none) i (some newId)) (upd.getD j none) j := by
      intro j hj
      exact slotValid_transfer _ s _ _ (setFwd_headLen ..) (setFwd_nodesLen ..)
        hflen (hval j (by simp [hj]))
    obtain ⟨ih1, ih2, ih3, ih4, ih5⟩ := ih (setFwd s (upd.getD i none) i (some newId))
      (List.Nodup.of_cons hnd) hval'
    have hstep : spliceAll upd newId s (i :: rest) =
        spliceAll upd newId (setFwd s (upd.getD i none) i (some newId)) rest := rfl
    rw [hstep]
    refine ⟨?_, by rw [ih2, setFwd_nodesLen], by rw [ih3, setFwd_headLen],
      by rw [ih4, setFwd_level], ?_⟩
    · intro p' i'
      rw [ih1 p' i', fwdAt_setFwd s _ i (some newId) hvi p' i']
      by_cases h1 : i' ∈ rest ∧ p' = upd.getD i' none
      · rw [if_pos h1, if_pos ⟨by simp [h1.1], h1.2⟩]
      · rw [if_neg h1]
        by_cases h2 : p' = upd.getD i none ∧ i' = i
        · rw [if_pos h2, if_pos ⟨by simp [h2.2], by rw [h2.2]; exact h2.1⟩]
        · rw [if_neg h2, if_neg ?_]
          rintro ⟨hmem, hup⟩
          rcases List.mem_cons.mp hmem with rfl | hmem'
          · exact h2 ⟨hup, rfl⟩
          · exact h1 ⟨hmem', hup⟩
    · intro m
      obtain ⟨k1, k2, k3, k4⟩ := ih5 m
      obtain ⟨m1, m2, m3, _⟩ := nodeAt_setFwd s (upd.getD i none) i (some newId) m
      exact ⟨k1.trans m1, k2.trans m2, k3.trans m3, (k4.trans (hflen m))⟩

theorem unlinkLoop_go (upd : List (Option Nat)) (x : Nat) (lvlx : Nat)
    (s : SLState K V)
    (hxup : ∀ j, j ≤ lvlx → upd.getD j none ≠ some x)
    (hvalid : ∀ j, j ≤ lvlx → slotValid s (upd.getD j none) j)
    (horig : ∀ j, j ≤ lvlx → fwdAt s (upd.getD j none) j = some x) :
    ∀ (len lo : Nat) (s_cur : SLState K V),
      (∀ j, lvlx < j → j < lo + len → fwdAt s (upd.getD j none) j ≠ some x) →
      (∀ p' i', fwdAt s_cur p' i' =
        if i' < lo ∧ i' ≤ lvlx ∧ p' = upd.getD i' none then
          (nodeAt s x).fwd.getD i' none
        else fwdAt s p' i') →
      s_cur.nodes.length = s.nodes.length →
      s_cur.headFwd.length = s.headFwd.length →
      s_cur.level = s.level →
      (∀ m, (nodeAt s_cur m).key = (nodeAt s m).key ∧
        (nodeAt s_cur m).val = (nodeAt s m).val ∧
        (nodeAt s_cur m).lvl = (nodeAt s m).lvl ∧
        (nodeAt s_cur m).fwd.length = (nodeAt s m).fwd.length) →
      (nodeAt s_cur x).fwd = (nodeAt s x).fwd →
      (∀ p' i', fwdAt (unlinkLoop upd x s_cur (List.range' lo len)) p' i' =
        if i' < lo + len ∧ i' ≤ lvlx ∧ p' = upd.getD i' none then
          (nodeAt s x).fwd.getD i' none
        else fwdAt s p' i') ∧
      (unlinkLoop upd x s_cur (List.range' lo len)).nodes.length = s.nodes.length ∧
      (unlinkLoop upd x s_cur (List.range' lo len)).headFwd.length =
        s.headFwd.length ∧
      (unlinkLoop upd x s_cur (List.range' lo len)).level = s.level ∧
      (∀ m, (nodeAt (unlinkLoop upd x s_cur (List.range' lo len)) m).key =
          (nodeAt s m).key ∧
        (nodeAt (unlinkLoop upd x s_cur (List.range' lo len)) m).val =
          (nodeAt s m).val ∧
        (nodeAt (unlinkLoop upd x s_cur (List.range' lo len)) m).lvl =
          (nodeAt s m).lvl ∧
        (nodeAt (unlinkLoop upd x s_cur (List.range' lo len)) m).fwd.length =
          (nodeAt s m).fwd.length) := by
  intro len
  induction len with
  | zero =>
    intro lo s_cur _ hcur hn hh hl hmeta _
    refine ⟨?_, hn, hh, hl, hmeta⟩
    intro p' i'
    rw [show List.range' lo 0 = [] from rfl]
    rw [show unlinkLoop upd x s_cur [] = s_cur from rfl]
    rw [hcur p' i']
    rw [show lo + 0 = lo from rfl]
  | succ len ih =>
    intro lo s_cur hbreak hcur hn hh hl hmeta hxfwd
    rw [List.range'_succ]
    have hcurlo : fwdAt s_cur (upd.getD lo none) lo = fwdAt s (upd.getD lo none) lo := by
      rw [hcur]
      rw [if_neg (fun hc => absurd hc.1 (lt_irrefl lo))]
    rcases le_or_lt lo lvlx with hlo | hlo
    · -- level lo is unlinked and the loop continues
      have hstep : fwdAt s_cur (upd.getD lo none) lo = some x := by
        rw [hcurlo]; exact horig lo hlo
      rw [show unlinkLoop upd x s_cur (lo :: List.range' (lo + 1) len) =
          (if fwdAt s_cur (upd.getD lo none) lo = some x then
            unlinkLoop upd x (setFwd s_cur (upd.getD lo none) lo
              ((nodeAt s_cur x).fwd.getD lo none)) (List.range' (lo + 1) len)
          else s_cur) from rfl]
      rw [if_pos hstep, hxfwd]
      have hvlo : slotValid s_cur (upd.getD lo none) lo :=
        slotValid_transfer s_cur s _ _ hh hn (fun m => (hmeta m).2.2.2)
          (hvalid lo hlo)
      have hnext := fwdAt_setFwd s_cur (upd.getD lo none) lo
        ((nodeAt s x).fwd.getD lo none) hvlo
      have hflen : ∀ m, (nodeAt (setFwd s_cur (upd.getD lo none) lo
          ((nodeAt s x).fwd.getD lo none)) m).fwd.length =
          (nodeAt s_cur m).fwd.length := by
        intro m
        rw [(nodeAt_setFwd s_cur (upd.getD lo none) lo _ m).2.2.2]
        split <;> simp
      have hcur' : ∀ p' i', fwdAt (setFwd s_cur (upd.getD lo none) lo
          ((nodeAt s x).fwd.getD lo none)) p' i' =
          if i' < lo + 1 ∧ i' ≤ lvlx ∧ p' = upd.getD i' none then
            (nodeAt s x).fwd.getD i' none
          else fwdAt s p' i' := by
        intro p' i'
        rw [hnext p' i']
        by_cases h1 : p' = upd.getD lo none ∧ i' = lo
        · rw [if_pos h1, h1.2, if_pos ⟨by omega, by omega, h1.2 ▸ h1.1⟩]
        · rw [if_neg h1, hcur p' i']
          by_cases h2 : i' < lo ∧ i' ≤ lvlx ∧ p' = upd.getD i' none
          · rw [if_pos h2, if_pos ⟨by omega, h2.2⟩]
          · rw [if_neg h2, if_neg ?_]
            rintro ⟨ha, hb, hc⟩
            rcases Nat.lt_or_ge i' lo with hd | hd
            · exact h2 ⟨hd, hb, hc⟩
            · have hilo : i' = lo := by omega
              exact h1 ⟨hilo ▸ hc, hilo⟩
      have hxfwd' : (nodeAt (setFwd s_cur (upd.getD lo none) lo
          ((nodeAt s x).fwd.getD lo none)) x).fwd = (nodeAt s x).fwd := by
        rw [(nodeAt_setFwd s_cur (upd.getD lo none) lo _ x).2.2.2,
          if_neg (hxup lo hlo), hxfwd]
      have hres := ih (lo + 1)
        (setFwd s_cur (upd.getD lo none) lo ((nodeAt s x).fwd.getD lo none))
        (fun j hj1 hj2 => hbreak j hj1 (by omega))
        hcur'
        (by rw [setFwd_nodesLen, hn])
        (by rw [setFwd_headLen, hh])
        (by rw [setFwd_level, hl])
        (by
          intro m
          obtain ⟨m1, m2, m3, _⟩ := nodeAt_setFwd s_cur (upd.getD lo none) lo
            ((nodeAt s x).fwd.getD lo none) m
          obtain ⟨k1, k2, k3, k4⟩ := hmeta m
          exact ⟨m1.trans k1, m2.trans k2, m3.trans k3, (hflen m).trans k4⟩)
        hxfwd'
      obtain ⟨r1, r2, r3, r4, r5⟩ := hres
      refine ⟨?_, r2, r3, r4, r5⟩
      intro p' i'
      rw [r1 p' i']
      have heq : lo + 1 + len = lo + (len + 1) := by omega
      rw [heq]
    · -- update[lo].forward[lo] != x: the loop breaks here
      have hstop : fwdAt s_cur (upd.getD lo none) lo ≠ some x := by
        rw [hcurlo]
        exact hbreak lo hlo (by omega)
      rw [show unlinkLoop upd x s_cur (lo :: List.range' (lo + 1) len) =
          (if fwdAt s_cur (upd.getD lo none) lo = some x then
            unlinkLoop upd x (setFwd s_cur (upd.getD lo none) lo
              ((nodeAt s_cur x).fwd.getD lo none)) (List.range' (lo + 1) len)
          else s_cur) from rfl]
      rw [if_neg hstop]
      refine ⟨?_, hn, hh, hl, hmeta⟩
      intro p' i'
      rw [hcur p' i']
      by_cases h1 : i' < lo ∧ i' ≤ lvlx ∧ p' = upd.getD i' none
      · rw [if_pos h1, if_pos ⟨by omega, h1.2⟩]
      · rw [if_neg h1, if_neg ?_]
        rintro ⟨ha, hb, hc⟩
        exact h1 ⟨by omega, hb, hc⟩

theorem isChain_head {s : SLState K V} {i : Nat} {p : Option Nat} {B : List Nat}
    (h : IsChain s i p B) : fwdAt s p i = B.head? := by
  cases B with
  | nil => exact h
  | cons b B' => exact h.1

theorem split_pred_unique {α : Type} (P : α → Prop) :
    ∀ (A C B D : List α), A ++ B = C ++ D →
      (∀ a ∈ A, P a) → (∀ b ∈ B, ¬ P b) → (∀ c ∈ C, P c) → (∀ d ∈ D, ¬ P d) →
      A = C ∧ B = D := by
  intro A
  induction A with
  | nil =>
    intro C B D heq hA hB hC hD
    cases C with
    | nil => exact ⟨rfl, heq⟩
    | cons c C' =>
      exfalso
      have hBeq : B = c :: (C' ++ D) := by simpa using heq
      have hcB : c ∈ B := by rw [hBeq]; simp
      exact hB c hcB (hC c (by simp))
  | cons a A' ih =>
    intro C B D heq hA hB hC hD
    cases C with
    | nil =>
      exfalso
      have hDeq : a :: (A' ++ B) = D := by simpa using heq
      have haD : a ∈ D := by rw [← hDeq]; simp
      exact hD a haD (hA a (by simp))
    | cons c C' =>
      have hac : a = c := by
        have := congrArg List.head? heq
        simpa using this
      subst hac
      have htail : A' ++ B = C' ++ D := by
        have := congrArg List.tail heq
        simpa using this
      obtain ⟨h1, h2⟩ := ih C' B D htail (fun x hx => hA x (by simp [hx]))
        hB (fun x hx => hC x (by simp [hx])) hD
      exact ⟨by rw [h1], h2⟩

theorem splitAt_full {s : SLState K V} {L : List Nat} (inv : SLInv s L)
    (key : K) (j : Nat) (hj : j ≤ 16) :
    ∃ A B, chainL s L j = A ++ B ∧
      (updateVec s key).getD j none = endPos none A ∧
      (∀ n ∈ A, keyAt s n < key) ∧ (∀ n ∈ B, ¬ keyAt s n < key) ∧
      IsChain s j ((updateVec s key).getD j none) B := by
  obtain ⟨A, B, hAB, hq, hAk, hch, hBh⟩ := updateVec_spec inv key j hj
  refine ⟨A, B, hAB, hq, hAk, ?_, hch⟩
  intro n hn
  cases B with
  | nil => cases hn
  | cons b B' =>
    have hb : ¬ keyAt s b < key := hBh b rfl
    rcases List.mem_cons.mp hn with rfl | hn'
    · exact hb
    · have hs := chainL_sorted inv j
      rw [hAB, List.map_append, List.pairwise_append] at hs
      have hbn : keyAt s b < keyAt s n := by
        have hp := hs.2.1
        rw [List.map_cons, List.pairwise_cons] at hp
        exact hp.1 (keyAt s n) (List.mem_map_of_mem _ hn')
      intro hcon
      exact hb (lt_trans hbn hcon)

theorem present_hit {s : SLState K V} {L : List Nat} (inv : SLInv s L)
    {key : K} {n : Nat} (hn : n ∈ L) (hk : keyAt s n = key) :
    fwdAt s ((updateVec s key).getD 0 none) 0 = some n := by
  obtain ⟨A, B, hAB, _, hAk, hBk, hch⟩ := splitAt_full inv key 0 (by omega)
  rw [chainL_zero] at hAB
  have hnB : n ∈ B := by
    rcases List.mem_append.mp (hAB ▸ hn) with hA | hB
    · exact absurd (hk ▸ hAk n hA) (lt_irrefl key)
    · exact hB
  cases B with
  | nil => cases hnB
  | cons b B' =>
    have hbn : b = n := by
      rcases List.mem_cons.mp hnB with rfl | hn'
      · rfl
      · exfalso
        have hs := inv.hsorted
        rw [hAB, List.map_append, List.pairwise_append] at hs
        have hp := hs.2.1
        rw [List.map_cons, List.pairwise_cons] at hp
        have : keyAt s b < keyAt s n := hp.1 (keyAt s n) (List.mem_map_of_mem _ hn')
        exact hBk b (by simp) (hk ▸ this)
    rw [isChain_head hch]
    simp [hbn]

theorem found_split {s : SLState K V} {L : List Nat} (inv : SLInv s L)
    {key : K} {x : Nat} (hx : x ∈ L) (hk : keyAt s x = key) :
    ∃ A0 B0, L = A0 ++ x :: B0 ∧
      (updateVec s key).getD 0 none = endPos none A0 ∧
      (∀ n ∈ A0, keyAt s n < key) ∧ (∀ n ∈ B0, key < keyAt s n) := by
  obtain ⟨A, B, hAB, hq, hAk, hBk, hch⟩ := splitAt_full inv key 0 (by omega)
  rw [chainL_zero] at hAB
  have hhd := present_hit inv hx hk
  rw [isChain_head hch] at hhd
  cases B with
  | nil => cases hhd
  | cons b B' =>
    have hbx : b = x := by simpa using hhd
    subst hbx
    refine ⟨A, B', hAB, hq, hAk, ?_⟩
    intro n hn
    have hs := inv.hsorted
    rw [hAB, List.map_append, List.pairwise_append] at hs
    have hp := hs.2.1
    rw [List.map_cons, List.pairwise_cons] at hp
    exact hk ▸ hp.1 (keyAt s n) (List.mem_map_of_mem _ hn)

theorem miss_split {s : SLState K V} {L : List Nat} (inv : SLInv s L)
    {key : K} (hmiss : ∀ n ∈ L, keyAt s n ≠ key) :
    ∃ A0 B0, L = A0 ++ B0 ∧
      (updateVec s key).getD 0 none = endPos none A0 ∧
      (∀ n ∈ A0, keyAt s n < key) ∧ (∀ n ∈ B0, key < keyAt s n) ∧
      IsChain s 0 ((updateVec s key).getD 0 none) B0 := by
  obtain ⟨A, B, hAB, hq, hAk, hBk, hch⟩ := splitAt_full inv key 0 (by omega)
  rw [chainL_zero] at hAB
  refine ⟨A, B, hAB, hq, hAk, ?_, hch⟩
  intro n hn
  have h1 := hBk n hn
  have h2 := hmiss n (hAB ▸ List.mem_append.mpr (Or.inr hn))
  rcases lt_trichotomy key (keyAt s n) with h | h | h
  · exact h
  · exact absurd h.symm h2
  · exact absurd h h1

theorem searchSL_hit {s : SLState K V} {L : List Nat} (inv : SLInv s L)
    {key : K} {n : Nat} (hn : n ∈ L) (hk : keyAt s n = key) :
    searchSL s key = ((nodeAt s n).val, true) := by
  have hhd := present_hit inv hn hk
  simp only [searchSL]
  rw [hhd]
  simp [hk]

theorem searchSL_miss {s : SLState K V} {L : List Nat} (inv : SLInv s L)
    {key : K} (hmiss : ∀ n ∈ L, keyAt s n ≠ key) :
    searchSL s key = (default, false) := by
  rcases hfw : fwdAt s ((updateVec s key).getD 0 none) 0 with _ | x
  · simp only [searchSL]
    rw [hfw]
  · obtain ⟨A, B, hAB, _, _, _, hch⟩ := splitAt_full inv key 0 (by omega)
    rw [chainL_zero] at hAB
    rw [isChain_head hch] at hfw
    have hxB : x ∈ B := by
      cases B with
      | nil => cases hfw
      | cons b B' => simp at hfw; simp [hfw]
    have hxL : x ∈ L := hAB ▸ List.mem_append.mpr (Or.inr hxB)
    simp only [searchSL]
    rw [← isChain_head hch] at hfw
    rw [hfw]
    simp [hmiss x hxL]

theorem minSL_spec {s : SLState K V} {L : List Nat} (inv : SLInv s L) :
    (L = [] → minSL s = (default, default, false)) ∧
    (∀ n L', L = n :: L' → minSL s = (keyAt s n, (nodeAt s n).val, true)) := by
  have hch : IsChain s 0 none L := by
    have := inv.hchain 0 (by omega)
    rwa [chainL_zero] at this
  have hhd := isChain_head hch
  constructor
  · intro hL
    subst hL
    simp only [List.head?] at hhd
    simp [minSL, hhd]
  · intro n L' hL
    subst hL
    simp only [List.head?] at hhd
    simp [minSL, hhd, keyAt]

theorem advanceMax_spec (s : SLState K V) (i : Nat) :
    ∀ (M : List Nat) (p : Option Nat) (fuel : Nat),
      IsChain s i p M → M.length ≤ fuel →
      advanceMax s i fuel p = endPos p M := by
  intro M
  induction M with
  | nil =>
    intro p fuel h _
    have h' : fwdAt s p i = none := h
    cases fuel with
    | zero => rfl
    | succ fuel => simp [advanceMax, h', endPos]
  | cons n M' ih =>
    intro p fuel h hf
    cases fuel with
    | zero => simp at hf
    | succ fuel =>
      have h1 : fwdAt s p i = some n := h.1
      simp only [advanceMax, h1]
      exact ih (some n) fuel h.2 (by simp at hf; omega)

theorem onchain_end {s : SLState K V} {L : List Nat} (inv : SLInv s L)
    (j : Nat) (hj : j ≤ 16) (p : Option Nat)
    (hgood : GoodEntryMax s L j p) :
    ∃ A M, chainL s L j = A ++ M ∧ p = endPos none A ∧ IsChain s j p M := by
  rcases hgood with rfl | ⟨m, rfl, hm⟩
  · exact ⟨[], chainL s L j, by simp, rfl, inv.hchain j hj⟩
  · obtain ⟨C1, C2, hC⟩ := List.append_of_mem hm
    refine ⟨C1 ++ [m], C2, by simp [hC], (endPos_concat none C1 m).symm, ?_⟩
    have := inv.hchain j hj
    rw [hC] at this
    exact isChain_suffix s j C1 none m C2 this

theorem descendMax_spec {s : SLState K V} {L : List Nat} (inv : SLInv s L) :
    ∀ i, i ≤ s.level → ∀ p, GoodEntryMax s L i p →
      descendMax s i p = endPos none L := by
  intro i
  induction i with
  | zero =>
    intro _ p hgood
    obtain ⟨A, M, hAM, hp, hch⟩ := onchain_end inv 0 (by omega) p hgood
    rw [chainL_zero] at hAM
    have hlen : M.length ≤ s.nodes.length := by
      have h1 := slinv_length_le inv
      rw [hAM] at h1
      simp at h1
      omega
    rw [show descendMax s 0 p = advanceMax s 0 s.nodes.length p from rfl]
    rw [advanceMax_spec s 0 M p s.nodes.length hch hlen, hp, ← endPos_append, ← hAM]
  | succ i ih =>
    intro hi p hgood
    obtain ⟨A, M, hAM, hp, hch⟩ := onchain_end inv (i + 1)
      (by have := inv.hlev; omega) p hgood
    have hlen : M.length ≤ s.nodes.length := by
      have h1 := chainL_length_le inv (i + 1)
      rw [hAM] at h1
      simp at h1
      omega
    rw [show descendMax s (i + 1) p =
      descendMax s i (advanceMax s (i + 1) s.nodes.length p) from rfl]
    rw [advanceMax_spec s (i + 1) M p s.nodes.length hch hlen]
    have hqe : endPos p M = endPos none (chainL s L (i + 1)) := by
      rw [hp, ← endPos_append, ← hAM]
    refine ih (by omega) _ ?_
    rw [hqe]
    rcases endPos_mem none (chainL s L (i + 1)) with h | ⟨n, hn, h⟩
    · exact Or.inl h
    · exact Or.inr ⟨n, h, chainL_mono_mem (by omega) hn⟩

theorem maxSL_spec {s : SLState K V} {L : List Nat} (inv : SLInv s L) :
    (L = [] → maxSL s = (default, default, false)) ∧
    (∀ A n, L = A ++ [n] → maxSL s = (keyAt s n, (nodeAt s n).val, true)) := by
  have hdm : descendMax s s.level none = endPos none L :=
    descendMax_spec inv s.level (le_refl _) none (Or.inl rfl)
  constructor
  · intro hL
    subst hL
    simp only [maxSL, hdm, endPos]
  · intro A n hL
    subst hL
    rw [show maxSL s = (match descendMax s s.level none with
      | some n => ((nodeAt s n).key, (nodeAt s n).val, true)
      | none => (default, default, false)) from rfl]
    rw [hdm, endPos_concat]
    rfl

theorem isChain_split (s : SLState K V) (i : Nat) :
    ∀ (A : List Nat) (p : Option Nat) (B : List Nat),
      IsChain s i p (A ++ B) →
      ChainSeg s i p A (endPos p A) ∧ IsChain s i (endPos p A) B := by
  intro A
  induction A with
  | nil => intro p B h; exact ⟨rfl, h⟩
  | cons a A' ih =>
    intro p B h
    obtain ⟨h1, h2⟩ := ih (some a) B h.2
    exact ⟨⟨h.1, h1⟩, h2⟩

theorem getD_map_range (f : Nat → Option Nat) (n i : Nat) :
    (((List.range n).map f).getD i none) = if i < n then f i else none := by
  by_cases h : i < n
  · rw [if_pos h]
    rw [List.getD_eq_getElem?_getD]
    rw [List.getElem?_eq_getElem (by simpa using h)]
    simp
  · rw [if_neg h]
    apply List.getD_eq_default
    simpa using Nat.le_of_not_lt h

theorem rangeIds_eq {s : SLState K V} {L : List Nat} (inv : SLInv s L) :
    rangeIds s = L := by
  have hch : IsChain s 0 none L := by
    have := inv.hchain 0 (by omega)
    rwa [chainL_zero] at this
  exact chainIds_of_isChain s 0 L none s.nodes.length hch (slinv_length_le inv)

theorem levelIds_eq {s : SLState K V} {L : List Nat} (inv : SLInv s L)
    (i : Nat) (hi : i ≤ 16) :
    chainIds s i s.nodes.length none = chainL s L i :=
  chainIds_of_isChain s i (chainL s L i) none s.nodes.length
    (inv.hchain i hi) (chainL_length_le inv i)

theorem insert_found_spec {s : SLState K V} {L : List Nat} (inv : SLInv s L)
    {key : K} (v : V) (lvl : Nat) {x : Nat} (hx : x ∈ L) (hk : keyAt s x = key) :
    insertSL s key v lvl =
      ⟨s.nodes.set x ⟨(nodeAt s x).key, v, (nodeAt s x).lvl, (nodeAt s x).fwd⟩,
        s.headFwd, s.level⟩ ∧
    SLInv (insertSL s key v lvl) L ∧
    (∀ m, keyAt (insertSL s key v lvl) m = keyAt s m) ∧
    (∀ m, (nodeAt (insertSL s key v lvl) m).lvl = (nodeAt s m).lvl) ∧
    (nodeAt (insertSL s key v lvl) x).val = v ∧
    (insertSL s key v lvl).nodes.length = s.nodes.length := by
  have hhd := present_hit inv hx hk
  have heq : insertSL s key v lvl =
      ⟨s.nodes.set x ⟨(nodeAt s x).key, v, (nodeAt s x).lvl, (nodeAt s x).fwd⟩,
        s.headFwd, s.level⟩ := by
    simp only [insertSL]
    rw [hhd]
    exact if_pos hk
  have hxlen : x < s.nodes.length := inv.hvalid x hx
  set s' := (⟨s.nodes.set x ⟨(nodeAt s x).key, v, (nodeAt s x).lvl, (nodeAt s x).fwd⟩,
      s.headFwd, s.level⟩ : SLState K V) with hs'
  have hnode : ∀ m, (nodeAt s' m).key = (nodeAt s m).key ∧
      (nodeAt s' m).lvl = (nodeAt s m).lvl ∧
      (nodeAt s' m).fwd = (nodeAt s m).fwd ∧
      (nodeAt s' m).val = (if m = x then v else (nodeAt s m).val) := by
    intro m
    by_cases hmx : m = x
    · subst hmx
      have hget : nodeAt s' m =
          ⟨(nodeAt s m).key, v, (nodeAt s m).lvl, (nodeAt s m).fwd⟩ := by
        show (s.nodes.set m _).getD m default = _
        exact getD_set_self _ _ _ _ hxlen
      rw [hget, if_pos rfl]
      exact ⟨rfl, rfl, rfl, rfl⟩
    · have hget : nodeAt s' m = nodeAt s m := by
        show (s.nodes.set x _).getD m default = s.nodes.getD m default
        exact getD_set_ne _ _ _ (fun hh => hmx hh.symm)
      rw [hget, if_neg hmx]
      exact ⟨rfl, rfl, rfl, rfl⟩
  have hfwd : ∀ p i, fwdAt s' p i = fwdAt s p i := by
    intro p i
    cases p with
    | none => rfl
    | some m => show (nodeAt s' m).fwd.getD i none = _; rw [(hnode m).2.2.1]; rfl
  have hkeep : ∀ m, keyAt s' m = keyAt s m := fun m => (hnode m).1
  have hlvlkeep : ∀ m, (nodeAt s' m).lvl = (nodeAt s m).lvl := fun m => (hnode m).2.1
  have hchainL : ∀ i, chainL s' L i = chainL s L i := by
    intro i
    apply List.filter_congr
    intro n _
    rw [hlvlkeep n]
  have hinv : SLInv s' L := by
    refine ⟨inv.hhead, inv.hlev, ?_, ?_, ?_, ?_, ?_⟩
    · intro i hi
      rw [hchainL i]
      exact isChain_congr s' s i _ none (hfwd none i)
        (fun n _ => hfwd (some n) i) (inv.hchain i hi)
    · have : L.map (keyAt s') = L.map (keyAt s) := List.map_congr_left fun n _ => hkeep n
      rw [this]
      exact inv.hsorted
    · intro n hn
      show n < (s.nodes.set x _).length
      rw [List.length_set]
      exact inv.hvalid n hn
    · intro n hn
      rw [(hnode n).2.2.1, hlvlkeep n]
      exact inv.hflen n hn
    · intro n hn
      rw [hlvlkeep n]
      exact inv.hlvl n hn
  rw [heq]
  exact ⟨rfl, hinv, hkeep, hlvlkeep, (hnode x).2.2.2.trans (if_pos rfl),
    by show (s.nodes.set x _).length = _; rw [List.length_set]⟩

theorem head_mem_of_hit {s : SLState K V} {L : List Nat} (inv : SLInv s L)
    {key : K} {x : Nat}
    (hfw : fwdAt s ((updateVec s key).getD 0 none) 0 = some x) : x ∈ L := by
  obtain ⟨A, B, hAB, _, _, _, hch⟩ := splitAt_full inv key 0 (by omega)
  rw [chainL_zero] at hAB
  rw [isChain_head hch] at hfw
  cases B with
  | nil => cases hfw
  | cons b B' =>
    have : b = x := by simpa using hfw
    subst this
    exact hAB ▸ List.mem_append.mpr (Or.inr (by simp))

theorem insertSL_eq_new {s : SLState K V} {L : List Nat} (inv : SLInv s L)
    {key : K} (v : V) (lvl : Nat) (hmiss : ∀ n ∈ L, keyAt s n ≠ key) :
    insertSL s key v lvl = insertNew s key v lvl (updateVec s key) := by
  rcases hfw : fwdAt s ((updateVec s key).getD 0 none) 0 with _ | x
  · simp only [insertSL]
    rw [hfw]
  · have hxL : x ∈ L := head_mem_of_hit inv hfw
    simp only [insertSL]
    rw [hfw]
    exact if_neg (hmiss x hxL)

theorem insert_new_spec {s : SLState K V} {L : List Nat} (inv : SLInv s L)
    {key : K} (v : V) (lvl : Nat) (hlvl : lvl ≤ 16)
    (hmiss : ∀ n ∈ L, keyAt s n ≠ key) :
    ∃ A0 B0, L = A0 ++ B0 ∧
      (∀ n ∈ A0, keyAt s n < key) ∧ (∀ n ∈ B0, key < keyAt s n) ∧
      SLInv (insertNew s key v lvl (updateVec s key))
        (A0 ++ s.nodes.length :: B0) ∧
      keyAt (insertNew s key v lvl (updateVec s key)) s.nodes.length = key ∧
      (∀ m ∈ L, keyAt (insertNew s key v lvl (updateVec s key)) m = keyAt s m) ∧
      (nodeAt (insertNew s key v lvl (updateVec s key)) s.nodes.length).val = v ∧
      (insertNew s key v lvl (updateVec s key)).nodes.length =
        s.nodes.length + 1 := by
  obtain ⟨A0, B0, hL, hq0, hA0, hB0, _⟩ := miss_split inv hmiss
  have hA0L : ∀ n ∈ A0, n ∈ L := fun n hn => hL ▸ List.mem_append.mpr (Or.inl hn)
  have hB0L : ∀ n ∈ B0, n ∈ L := fun n hn => hL ▸ List.mem_append.mpr (Or.inr hn)
  set upd := updateVec s key with hupd
  set newId := s.nodes.length with hnewId
  set nd : SLNode K V := ⟨key, v, lvl,
    (List.range (lvl + 1)).map (fun i => fwdAt s (upd.getD i none) i)⟩ with hnd
  set s1 : SLState K V := ⟨s.nodes ++ [nd], s.headFwd, max s.level lvl⟩ with hs1
  have hins : insertNew s key v lvl upd =
      spliceAll upd newId s1 (List.range (lvl + 1)) := rfl
  have hs1node : ∀ m, m < s.nodes.length → nodeAt s1 m = nodeAt s m := by
    intro m hm
    show (s.nodes ++ [nd]).getD m default = s.nodes.getD m default
    exact List.getD_append _ _ _ _ hm
  have hs1new : nodeAt s1 newId = nd := by
    show (s.nodes ++ [nd]).getD s.nodes.length default = nd
    exact getD_append_length _ _ _
  have hs1fwd_old : ∀ m, m < s.nodes.length →
      ∀ i, fwdAt s1 (some m) i = fwdAt s (some m) i := by
    intro m hm i
    show (nodeAt s1 m).fwd.getD i none = (nodeAt s m).fwd.getD i none
    rw [hs1node m hm]
  have hs1fwd_new : ∀ i, fwdAt s1 (some newId) i =
      if i < lvl + 1 then fwdAt s (upd.getD i none) i else none := by
    intro i
    show (nodeAt s1 newId).fwd.getD i none = _
    rw [hs1new]
    exact getD_map_range _ _ _
  have hsplit : ∀ i, i ≤ 16 →
      upd.getD i none =
        endPos none (A0.filter (fun n => decide (i ≤ (nodeAt s n).lvl))) ∧
      IsChain s i (upd.getD i none)
        (B0.filter (fun n => decide (i ≤ (nodeAt s n).lvl))) ∧
      chainL s L i = A0.filter (fun n => decide (i ≤ (nodeAt s n).lvl)) ++
        B0.filter (fun n => decide (i ≤ (nodeAt s n).lvl)) := by
    intro i hi
    obtain ⟨Ai, Bi, hABi, hqi, hAki, hBki, hchi⟩ := splitAt_full inv key i hi
    have hfilter : chainL s L i =
        A0.filter (fun n => decide (i ≤ (nodeAt s n).lvl)) ++
        B0.filter (fun n => decide (i ≤ (nodeAt s n).lvl)) := by
      rw [chainL, hL, List.filter_append]
    obtain ⟨he1, he2⟩ := split_pred_unique (fun n => keyAt s n < key)
      Ai (A0.filter (fun n => decide (i ≤ (nodeAt s n).lvl)))
      Bi (B0.filter (fun n => decide (i ≤ (nodeAt s n).lvl)))
      (hABi.symm.trans hfilter) hAki hBki
      (fun n hn => hA0 n (List.mem_of_mem_filter hn))
      (fun n hn => lt_asymm (hB0 n (List.mem_of_mem_filter hn)))
    exact ⟨he1 ▸ hqi, he2 ▸ hchi, hfilter⟩
  have hvalid : ∀ i ∈ List.range (lvl + 1), slotValid s1 (upd.getD i none) i := by
    intro i hi
    have hi' : i ≤ 16 := by
      have := List.mem_range.mp hi
      omega
    obtain ⟨hqi, _, _⟩ := hsplit i hi'
    rcases endPos_mem none
        (A0.filter (fun n => decide (i ≤ (nodeAt s n).lvl))) with h | ⟨n, hn, h⟩
    · rw [hqi, h]
      show i < s1.headFwd.length
      have : s1.headFwd.length = 17 := inv.hhead
      omega
    · rw [hqi, h]
      have hnA0 : n ∈ A0 := List.mem_of_mem_filter hn
      have hnL : n ∈ L := hA0L n hnA0
      have hnlvl : i ≤ (nodeAt s n).lvl := by
        have := List.of_mem_filter hn
        simpa using this
    -- slotValid s1 (some n) i
      refine ⟨?_, ?_⟩
      · show n < (s.nodes ++ [nd]).length
        rw [List.length_append]
        have := inv.hvalid n hnL
        simp
        omega
      · show i < (nodeAt s1 n).fwd.length
        rw [hs1node n (inv.hvalid n hnL), inv.hflen n hnL]
        omega
  obtain ⟨hS1, hS2, hS3, hS4, hS5⟩ := spliceAll_spec upd newId
    (List.range (lvl + 1)) s1 (List.nodup_range _) hvalid
  set s' := spliceAll upd newId s1 (List.range (lvl + 1)) with hsp
  have h'fwd : ∀ p' i', fwdAt s' p' i' =
      if i' < lvl + 1 ∧ p' = upd.getD i' none then some newId
      else fwdAt s1 p' i' := by
    intro p' i'
    rw [hS1 p' i']
    by_cases h : i' < lvl + 1 ∧ p' = upd.getD i' none
    · rw [if_pos ⟨List.mem_range.mpr h.1, h.2⟩, if_pos h]
    · rw [if_neg ?_, if_neg h]
      rintro ⟨h1, h2⟩
      exact h ⟨List.mem_range.mp h1, h2⟩
  have h'len : s'.nodes.length = s.nodes.length + 1 := by
    rw [hS2]
    show (s.nodes ++ [nd]).length = _
    rw [List.length_append]
    rfl
  have h'head : s'.headFwd.length = 17 := by
    rw [hS3]
    exact inv.hhead
  have h'level : s'.level = max s.level lvl := hS4
  have h'node_old : ∀ m, m < s.nodes.length →
      (nodeAt s' m).key = (nodeAt s m).key ∧
      (nodeAt s' m).val = (nodeAt s m).val ∧
      (nodeAt s' m).lvl = (nodeAt s m).lvl ∧
      (nodeAt s' m).fwd.length = (nodeAt s m).fwd.length := by
    intro m hm
    obtain ⟨k1, k2, k3, k4⟩ := hS5 m
    rw [hs1node m hm] at k1 k2 k3 k4
    exact ⟨k1, k2, k3, k4⟩
  have h'node_new :
      (nodeAt s' newId).key = key ∧ (nodeAt s' newId).val = v ∧
      (nodeAt s' newId).lvl = lvl ∧ (nodeAt s' newId).fwd.length = lvl + 1 := by
    obtain ⟨k1, k2, k3, k4⟩ := hS5 newId
    rw [hs1new] at k1 k2 k3 k4
    refine ⟨k1, k2, k3, k4.trans ?_⟩
    show ((List.range (lvl + 1)).map _).length = lvl + 1
    simp
  have hupd_none_or_A0 : ∀ i, i ≤ 16 →
      upd.getD i none = none ∨
      ∃ m ∈ A0, upd.getD i none = some m ∧ i ≤ (nodeAt s m).lvl := by
    intro i hi
    obtain ⟨hqi, _, _⟩ := hsplit i hi
    rcases endPos_mem none
        (A0.filter (fun n => decide (i ≤ (nodeAt s n).lvl))) with h | ⟨n, hn, h⟩
    · exact Or.inl (hqi.trans h)
    · refine Or.inr ⟨n, List.mem_of_mem_filter hn, hqi.trans h, ?_⟩
      have := List.of_mem_filter hn
      simpa using this
  have hupd_ne_new : ∀ i, i ≤ 16 → upd.getD i none ≠ some newId := by
    intro i hi
    rcases hupd_none_or_A0 i hi with h | ⟨m, hm, h, _⟩
    · rw [h]
      simp
    · rw [h]
      intro hh
      have h1 := inv.hvalid m (hA0L m hm)
      have h2 : m = newId := by simpa using hh
      omega
  have hdisjAB : ∀ a ∈ A0, ∀ b ∈ B0, a ≠ b := by
    have hnd := slinv_nodup inv
    rw [hL, List.nodup_append] at hnd
    intro a ha b hb heq
    exact hnd.2.2 ha (heq ▸ hb)
  have hchains : ∀ i, i ≤ 16 →
      IsChain s' i none (chainL s' (A0 ++ newId :: B0) i) := by
    intro i hi
    obtain ⟨hqi, hchBi, hchLi⟩ := hsplit i hi
    set fA := A0.filter (fun n => decide (i ≤ (nodeAt s n).lvl)) with hfA
    set fB := B0.filter (fun n => decide (i ≤ (nodeAt s n).lvl)) with hfB
    have hfAL : ∀ n ∈ fA, n ∈ L := fun n hn => hA0L n (List.mem_of_mem_filter hn)
    have hfBL : ∀ n ∈ fB, n ∈ L := fun n hn => hB0L n (List.mem_of_mem_filter hn)
    have hmapA : A0.filter (fun n => decide (i ≤ (nodeAt s' n).lvl)) = fA :=
      List.filter_congr (fun n hn => by
        rw [(h'node_old n (inv.hvalid n (hA0L n hn))).2.2.1])
    have hmapB : B0.filter (fun n => decide (i ≤ (nodeAt s' n).lvl)) = fB :=
      List.filter_congr (fun n hn => by
        rw [(h'node_old n (inv.hvalid n (hB0L n hn))).2.2.1])
    have hupd_ne_B : ∀ n ∈ fB, upd.getD i none ≠ some n := by
      intro n hn
      rcases hupd_none_or_A0 i hi with h | ⟨m, hm, h, _⟩
      · rw [h]
        simp
      · rw [h]
        intro hh
        have h2 : m = n := by simpa using hh
        exact hdisjAB m hm n (List.mem_of_mem_filter hn) h2
    have hagreeB : ∀ n ∈ fB, fwdAt s' (some n) i = fwdAt s (some n) i := by
      intro n hn
      rw [h'fwd, if_neg ?_, hs1fwd_old n (inv.hvalid n (hfBL n hn)) i]
      rintro ⟨_, h2⟩
      exact hupd_ne_B n hn h2.symm
    by_cases hil : i ≤ lvl
    · have hnewkeep : decide (i ≤ (nodeAt s' newId).lvl) = true := by
        rw [h'node_new.2.2.1]
        simpa using hil
      have hcl : chainL s' (A0 ++ newId :: B0) i = fA ++ newId :: fB := by
        rw [chainL, List.filter_append, List.filter_cons, hnewkeep, if_pos rfl,
          hmapA, hmapB]
      rw [hcl]
      have hfwd_new : fwdAt s' (some newId) i = fwdAt s (upd.getD i none) i := by
        rw [h'fwd, if_neg ?_, hs1fwd_new i, if_pos (by omega)]
        rintro ⟨_, h2⟩
        exact hupd_ne_new i hi h2.symm
      have hchainB : IsChain s' i (some newId) fB := by
        have hhd : fwdAt s (upd.getD i none) i = fB.head? := isChain_head hchBi
        cases hfB0 : fB with
        | nil =>
          show fwdAt s' (some newId) i = none
          rw [hfwd_new, hhd, hfB0]
          rfl
        | cons b fB' =>
          refine ⟨by rw [hfwd_new, hhd, hfB0]; rfl, ?_⟩
          have htail : IsChain s i (some b) fB' := by
            have := hchBi
            rw [hfB0] at this
            exact this.2
          exact isChain_congr s' s i fB' (some b)
            (hagreeB b (by rw [hfB0]; simp))
            (fun n hn => hagreeB n (by rw [hfB0]; simp [hn])) htail
      have hchainNB : IsChain s' i (endPos none fA) (newId :: fB) := by
        refine ⟨?_, hchainB⟩
        rw [h'fwd, if_pos ⟨by omega, by rw [hqi]⟩]
      have hseg : ChainSeg s i none fA (endPos none fA) := by
        have hfull := inv.hchain i hi
        rw [hchLi] at hfull
        exact (isChain_split s i fA none fB hfull).1
      have hndA : fA.Nodup := by
        have hnd := slinv_nodup inv
        rw [hL, List.nodup_append] at hnd
        exact List.Nodup.filter _ hnd.1
      have hgraft := isChain_graft s' s i fA none (newId :: fB) hseg hndA
        (fun n _ => by simp) ?_ hchainNB
      · exact hgraft
      · intro x hx hxne
        have hxs1 : fwdAt s1 x i = fwdAt s x i := by
          rcases hx with rfl | ⟨n, hn, rfl⟩
          · rfl
          · exact hs1fwd_old n (inv.hvalid n (hfAL n hn)) i
        rw [h'fwd, if_neg ?_, hxs1]
        rintro ⟨_, h2⟩
        rw [hqi] at h2
        exact hxne h2
    · have hnewdrop : decide (i ≤ (nodeAt s' newId).lvl) = false := by
        rw [h'node_new.2.2.1]
        simpa using hil
      have hcl : chainL s' (A0 ++ newId :: B0) i = fA ++ fB := by
        rw [chainL, List.filter_append, List.filter_cons, hnewdrop]
        rw [if_neg (by simp), hmapA, hmapB]
      rw [hcl]
      have hfull := inv.hchain i hi
      rw [hchLi] at hfull
      refine isChain_congr s' s i (fA ++ fB) none ?_ ?_ hfull
      · rw [h'fwd, if_neg (by rintro ⟨h1, _⟩; omega)]
        rfl
      · intro n hn
        have hnL : n ∈ L := by
          rcases List.mem_append.mp hn with h | h
          · exact hfAL n h
          · exact hfBL n h
        rw [h'fwd, if_neg (by rintro ⟨h1, _⟩; omega),
          hs1fwd_old n (inv.hvalid n hnL) i]
  have h'key_old : ∀ m ∈ L, keyAt s' m = keyAt s m :=
    fun m hm => (h'node_old m (inv.hvalid m hm)).1
  have hsorted' :
      List.Pairwise (· < ·) ((A0 ++ newId :: B0).map (keyAt s')) := by
    have hmapA : A0.map (keyAt s') = A0.map (keyAt s) :=
      List.map_congr_left fun n hn => h'key_old n (hA0L n hn)
    have hmapB : B0.map (keyAt s') = B0.map (keyAt s) :=
      List.map_congr_left fun n hn => h'key_old n (hB0L n hn)
    rw [List.map_append, List.map_cons, hmapA, hmapB]
    have hkey_new : keyAt s' newId = key := h'node_new.1
    rw [hkey_new]
    have hs := inv.hsorted
    rw [hL, List.map_append, List.pairwise_append] at hs
    rw [List.pairwise_append]
    refine ⟨hs.1, ?_, ?_⟩
    · rw [List.pairwise_cons]
      refine ⟨?_, hs.2.1⟩
      intro b hb
      obtain ⟨n, hn, rfl⟩ := List.mem_map.mp hb
      exact hB0 n hn
    · intro a ha b hb
      obtain ⟨n, hn, rfl⟩ := List.mem_map.mp ha
      have hak : keyAt s n < key := hA0 n hn
      rcases List.mem_cons.mp hb with rfl | hb'
      · exact hak
      · obtain ⟨m, hm, rfl⟩ := List.mem_map.mp hb'
        exact lt_trans hak (hB0 m hm)
  have hinv' : SLInv s' (A0 ++ newId :: B0) := by
    refine ⟨h'head, ?_, hchains, hsorted', ?_, ?_, ?_⟩
    · rw [h'level]
      have := inv.hlev
      omega
    · intro n hn
      rw [h'len]
      rcases List.mem_append.mp hn with h | h
      · have := inv.hvalid n (hA0L n h)
        omega
      · rcases List.mem_cons.mp h with rfl | h'
        · omega
        · have := inv.hvalid n (hB0L n h')
          omega
    · intro n hn
      rcases List.mem_append.mp hn with h | h
      · obtain ⟨_, _, k3, k4⟩ := h'node_old n (inv.hvalid n (hA0L n h))
        rw [k3, k4]
        exact inv.hflen n (hA0L n h)
      · rcases List.mem_cons.mp h with rfl | h'
        · rw [h'node_new.2.2.1, h'node_new.2.2.2]
        · obtain ⟨_, _, k3, k4⟩ := h'node_old n (inv.hvalid n (hB0L n h'))
          rw [k3, k4]
          exact inv.hflen n (hB0L n h')
    · intro n hn
      rw [h'level]
      rcases List.mem_append.mp hn with h | h
      · rw [(h'node_old n (inv.hvalid n (hA0L n h))).2.2.1]
        exact le_trans (inv.hlvl n (hA0L n h)) (le_max_left _ _)
      · rcases List.mem_cons.mp h with rfl | h'
        · rw [h'node_new.2.2.1]
          exact le_max_right _ _
        · rw [(h'node_old n (inv.hvalid n (hB0L n h'))).2.2.1]
          exact le_trans (inv.hlvl n (hB0L n h')) (le_max_left _ _)
  exact ⟨A0, B0, hL, hA0, hB0, hinv', h'node_new.1, h'key_old,
    h'node_new.2.1, h'len⟩

theorem shrinkLevel_le (hf : List (Option Nat)) : ∀ lv, shrinkLevel hf lv ≤ lv := by
  intro lv
  induction lv with
  | zero => exact le_refl _
  | succ l ih =>
    rw [shrinkLevel]
    split
    · omega
    · exact le_refl _

theorem shrinkLevel_ge (hf : List (Option Nat)) :
    ∀ lv j, j ≤ lv → hf.getD j none ≠ none → j ≤ shrinkLevel hf lv := by
  intro lv
  induction lv with
  | zero => intro j hj _; omega
  | succ l ih =>
    intro j hj hja
    rw [shrinkLevel]
    split
    · rename_i hnil
      rcases Nat.lt_or_ge j (l + 1) with h | h
      · exact ih j (by omega) hja
      · have : j = l + 1 := by omega
        subst this
        exact absurd hnil hja
    · omega

theorem deleteSL_miss {s : SLState K V} {L : List Nat} (inv : SLInv s L)
    {key : K} (hmiss : ∀ n ∈ L, keyAt s n ≠ key) :
    deleteSL s key = (s, false) := by
  rcases hfw : fwdAt s ((updateVec s key).getD 0 none) 0 with _ | x
  · simp only [deleteSL]
    rw [hfw]
  · have hxL : x ∈ L := head_mem_of_hit inv hfw
    simp only [deleteSL]
    rw [hfw]
    exact if_neg (hmiss x hxL)

theorem delete_found_inv {s : SLState K V} {L : List Nat} (inv : SLInv s L)
    {key : K} {x : Nat} (hx : x ∈ L) (hk : keyAt s x = key) :
    ∃ L', SLInv (deleteSL s key).1 L' ∧ (deleteSL s key).2 = true := by
  have hhd := present_hit inv hx hk
  obtain ⟨A0, B0, hL, hq0, hA0, hB0⟩ := found_split inv hx hk
  have hA0L : ∀ n ∈ A0, n ∈ L := fun n hn => hL ▸ List.mem_append.mpr (Or.inl hn)
  have hB0L : ∀ n ∈ B0, n ∈ L :=
    fun n hn => hL ▸ List.mem_append.mpr (Or.inr (by simp [hn]))
  set upd := updateVec s key with hupd
  set lvlx := (nodeAt s x).lvl with hlvlx
  have hlvlxlev : lvlx ≤ s.level := inv.hlvl x hx
  have hlvlx16 : lvlx ≤ 16 := le_trans hlvlxlev inv.hlev
  have hxlen : x < s.nodes.length := inv.hvalid x hx
  have hsplit : ∀ j, j ≤ 16 →
      upd.getD j none =
        endPos none (A0.filter (fun n => decide (j ≤ (nodeAt s n).lvl))) ∧
      IsChain s j (upd.getD j none)
        ((x :: B0).filter (fun n => decide (j ≤ (nodeAt s n).lvl))) ∧
      chainL s L j = A0.filter (fun n => decide (j ≤ (nodeAt s n).lvl)) ++
        (x :: B0).filter (fun n => decide (j ≤ (nodeAt s n).lvl)) := by
    intro j hj
    obtain ⟨Aj, Bj, hABj, hqj, hAkj, hBkj, hchj⟩ := splitAt_full inv key j hj
    have hfilter : chainL s L j =
        A0.filter (fun n => decide (j ≤ (nodeAt s n).lvl)) ++
        (x :: B0).filter (fun n => decide (j ≤ (nodeAt s n).lvl)) := by
      rw [chainL, hL]
      rw [show A0 ++ x :: B0 = A0 ++ (x :: B0) from rfl, List.filter_append]
    obtain ⟨he1, he2⟩ := split_pred_unique (fun n => keyAt s n < key)
      Aj (A0.filter (fun n => decide (j ≤ (nodeAt s n).lvl)))
      Bj ((x :: B0).filter (fun n => decide (j ≤ (nodeAt s n).lvl)))
      (hABj.symm.trans hfilter) hAkj hBkj
      (fun n hn => hA0 n (List.mem_of_mem_filter hn))
      (fun n hn => by
        show ¬ keyAt s n < key
        rcases List.mem_cons.mp (List.mem_of_mem_filter hn) with h | hn'
        · rw [h, hk]
          exact lt_irrefl key
        · exact lt_asymm (hB0 n hn'))
    exact ⟨he1 ▸ hqj, he2 ▸ hchj, hfilter⟩
  have hupd_none_or_A0 : ∀ j, j ≤ 16 →
      upd.getD j none = none ∨
      ∃ m ∈ A0, upd.getD j none = some m ∧ j ≤ (nodeAt s m).lvl := by
    intro j hj
    obtain ⟨hqj, _, _⟩ := hsplit j hj
    rcases endPos_mem none
        (A0.filter (fun n => decide (j ≤ (nodeAt s n).lvl))) with h | ⟨n, hn, h⟩
    · exact Or.inl (hqj.trans h)
    · refine Or.inr ⟨n, List.mem_of_mem_filter hn, hqj.trans h, ?_⟩
      have := List.of_mem_filter hn
      simpa using this
  have hxup : ∀ j, j ≤ lvlx → upd.getD j none ≠ some x := by
    intro j hj
    rcases hupd_none_or_A0 j (by omega) with h | ⟨m, hm, h, _⟩
    · rw [h]
      simp
    · rw [h]
      intro hh
      have hmx : m = x := by simpa using hh
      subst hmx
      exact absurd (hk ▸ hA0 m hm) (lt_irrefl key)
  have hvalid : ∀ j, j ≤ lvlx → slotValid s (upd.getD j none) j := by
    intro j hj
    rcases hupd_none_or_A0 j (by omega) with h | ⟨m, hm, h, hml⟩
    · rw [h]
      show j < s.headFwd.length
      rw [inv.hhead]
      omega
    · rw [h]
      refine ⟨inv.hvalid m (hA0L m hm), ?_⟩
      rw [inv.hflen m (hA0L m hm)]
      omega
  have hfilter_keep : ∀ j, j ≤ lvlx →
      (x :: B0).filter (fun n => decide (j ≤ (nodeAt s n).lvl)) =
      x :: B0.filter (fun n => decide (j ≤ (nodeAt s n).lvl)) := by
    intro j hj
    rw [List.filter_cons]
    rw [show decide (j ≤ (nodeAt s x).lvl) = true by simpa using hj, if_pos rfl]
  have hfilter_drop : ∀ j, lvlx < j →
      (x :: B0).filter (fun n => decide (j ≤ (nodeAt s n).lvl)) =
      B0.filter (fun n => decide (j ≤ (nodeAt s n).lvl)) := by
    intro j hj
    rw [List.filter_cons]
    rw [show decide (j ≤ (nodeAt s x).lvl) = false by
      simp only [decide_eq_false_iff_not]
      omega]
    rw [if_neg (by simp)]
  have horig : ∀ j, j ≤ lvlx → fwdAt s (upd.getD j none) j = some x := by
    intro j hj
    obtain ⟨_, hchj, _⟩ := hsplit j (by omega)
    rw [hfilter_keep j hj] at hchj
    exact hchj.1
  have hbreak : ∀ j, lvlx < j → j < 0 + (s.level + 1) →
      fwdAt s (upd.getD j none) j ≠ some x := by
    intro j hj1 hj2
    have hj16 : j ≤ 16 := by
      have := inv.hlev
      omega
    obtain ⟨_, hchj, _⟩ := hsplit j hj16
    rw [hfilter_drop j hj1] at hchj
    rw [isChain_head hchj]
    intro hcon
    have hxB : x ∈ B0.filter (fun n => decide (j ≤ (nodeAt s n).lvl)) := by
      cases hfb : B0.filter (fun n => decide (j ≤ (nodeAt s n).lvl)) with
      | nil => rw [hfb] at hcon; cases hcon
      | cons b B' =>
        rw [hfb] at hcon
        have hbx : b = x := by simpa using hcon
        rw [hbx]
        simp
    have : x ∈ B0 := List.mem_of_mem_filter hxB
    exact absurd (hk ▸ hB0 x this) (lt_irrefl key)
  obtain ⟨U1, U2, U3, U4, U5⟩ := unlinkLoop_go upd x lvlx s hxup hvalid horig
    (s.level + 1) 0 s hbreak
    (fun p' i' => (if_neg (by rintro ⟨h1, _⟩; omega)).symm)
    rfl rfl rfl (fun m => ⟨rfl, rfl, rfl, rfl⟩) rfl
  set s2 := unlinkLoop upd x s (List.range' 0 (s.level + 1)) with hs2
  have hrw : unlinkLoop (updateVec s key) x s (List.range (s.level + 1)) = s2 := by
    rw [List.range_eq_range']
  have heq0 : deleteSL s key =
      (⟨(unlinkLoop (updateVec s key) x s (List.range (s.level + 1))).nodes,
        (unlinkLoop (updateVec s key) x s (List.range (s.level + 1))).headFwd,
        shrinkLevel
          (unlinkLoop (updateVec s key) x s (List.range (s.level + 1))).headFwd
          (unlinkLoop (updateVec s key) x s (List.range (s.level + 1))).level⟩,
        true) := by
    simp only [deleteSL]
    rw [hhd]
    exact if_pos hk
  rw [hrw] at heq0
  set s' : SLState K V :=
    ⟨s2.nodes, s2.headFwd, shrinkLevel s2.headFwd s2.level⟩ with hs'
  have hfwd_eq : ∀ p i, fwdAt s' p i = fwdAt s2 p i := by
    intro p i
    cases p <;> rfl
  have hnode_eq : ∀ m, nodeAt s' m = nodeAt s2 m := fun m => rfl
  have U1' : ∀ p' i', fwdAt s' p' i' =
      if i' ≤ lvlx ∧ p' = upd.getD i' none then fwdAt s (some x) i'
      else fwdAt s p' i' := by
    intro p' i'
    rw [hfwd_eq, U1 p' i']
    by_cases h : i' ≤ lvlx ∧ p' = upd.getD i' none
    · rw [if_pos ⟨by omega, h.1, h.2⟩, if_pos h]
      rfl
    · rw [if_neg ?_, if_neg h]
      rintro ⟨_, h2, h3⟩
      exact h ⟨h2, h3⟩
  have hkey' : ∀ m, keyAt s' m = keyAt s m := fun m => (U5 m).1
  have hlvl' : ∀ m, (nodeAt s' m).lvl = (nodeAt s m).lvl := fun m => (U5 m).2.2.1
  have hupd_ne_B : ∀ j, j ≤ 16 → ∀ n ∈ B0, upd.getD j none ≠ some n := by
    intro j hj n hn
    rcases hupd_none_or_A0 j hj with h | ⟨m, hm, h, _⟩
    · rw [h]
      simp
    · rw [h]
      intro hh
      have hmn : m = n := by simpa using hh
      subst hmn
      exact absurd (lt_trans (hA0 m hm) (hB0 m hn)) (lt_irrefl _)
  have hchains : ∀ j, j ≤ 16 →
      IsChain s' j none (chainL s' (A0 ++ B0) j) := by
    intro j hj
    obtain ⟨hqj, hchj, hchLj⟩ := hsplit j hj
    set fA := A0.filter (fun n => decide (j ≤ (nodeAt s n).lvl)) with hfA
    set fB := B0.filter (fun n => decide (j ≤ (nodeAt s n).lvl)) with hfB
    have hmapA : A0.filter (fun n => decide (j ≤ (nodeAt s' n).lvl)) = fA :=
      List.filter_congr (fun n _ => by rw [hlvl' n])
    have hmapB : B0.filter (fun n => decide (j ≤ (nodeAt s' n).lvl)) = fB :=
      List.filter_congr (fun n _ => by rw [hlvl' n])
    have hcl : chainL s' (A0 ++ B0) j = fA ++ fB := by
      rw [chainL, List.filter_append, hmapA, hmapB]
    rw [hcl]
    have hagreeB : ∀ n ∈ fB, fwdAt s' (some n) j = fwdAt s (some n) j := by
      intro n hn
      rw [U1', if_neg ?_]
      rintro ⟨_, h2⟩
      exact hupd_ne_B j hj n (List.mem_of_mem_filter hn) h2.symm
    rcases le_or_lt j lvlx with hjx | hjx
    · rw [hfilter_keep j hjx] at hchj hchLj
      have hchainB : IsChain s' j (upd.getD j none) fB := by
        have htail : IsChain s j (some x) fB := hchj.2
        have hhead : fwdAt s' (upd.getD j none) j = fB.head? := by
          rw [U1', if_pos ⟨hjx, rfl⟩]
          exact isChain_head htail
        cases hfb : fB with
        | nil =>
          show fwdAt s' (upd.getD j none) j = none
          rw [hhead, hfb]
          rfl
        | cons b fB' =>
          refine ⟨by rw [hhead, hfb]; rfl, ?_⟩
          have htail' : IsChain s j (some b) fB' := by
            have := htail
            rw [hfb] at this
            exact this.2
          exact isChain_congr s' s j fB' (some b)
            (hagreeB b (by rw [hfb]; simp))
            (fun n hn => hagreeB n (by rw [hfb]; simp [hn])) htail'
      have hseg : ChainSeg s j none fA (endPos none fA) := by
        have hfull := inv.hchain j hj
        rw [hchLj] at hfull
        exact (isChain_split s j fA none (x :: fB) hfull).1
      have hndA : fA.Nodup := by
        have hnd := slinv_nodup inv
        rw [hL, List.nodup_append] at hnd
        exact List.Nodup.filter _ hnd.1
      refine isChain_graft s' s j fA none fB hseg hndA
        (fun n _ => by simp) ?_ ?_
      · intro y hy hyne
        rw [U1', if_neg ?_]
        rintro ⟨_, h2⟩
        rw [hqj] at h2
        exact hyne h2
      · rw [← hqj]
        exact hchainB
    · rw [hfilter_drop j hjx] at hchLj
      have hfull := inv.hchain j hj
      rw [hchLj] at hfull
      refine isChain_congr s' s j (fA ++ fB) none ?_ ?_ hfull
      · rw [U1', if_neg (by rintro ⟨h1, _⟩; omega)]
      · intro n hn
        rw [U1', if_neg (by rintro ⟨h1, _⟩; omega)]
  have hsorted' : List.Pairwise (· < ·) ((A0 ++ B0).map (keyAt s')) := by
    have hmap : (A0 ++ B0).map (keyAt s') = (A0 ++ B0).map (keyAt s) :=
      List.map_congr_left fun n _ => hkey' n
    rw [hmap]
    have hsub : (A0 ++ B0).Sublist (A0 ++ x :: B0) :=
      List.Sublist.append_left (List.sublist_cons_self x B0) A0
    exact List.Pairwise.sublist (List.Sublist.map _ (hL ▸ hsub)) inv.hsorted
  have hlev2 : s2.level = s.level := U4
  have hinv' : SLInv s' (A0 ++ B0) := by
    refine ⟨?_, ?_, hchains, hsorted', ?_, ?_, ?_⟩
    · show s2.headFwd.length = 17
      rw [U3]
      exact inv.hhead
    · show shrinkLevel s2.headFwd s2.level ≤ 16
      have h1 := shrinkLevel_le s2.headFwd s2.level
      have := inv.hlev
      omega
    · intro n hn
      have hnL : n ∈ L := by
        rcases List.mem_append.mp hn with h | h
        · exact hA0L n h
        · exact hB0L n h
      show n < s2.nodes.length
      rw [U2]
      exact inv.hvalid n hnL
    · intro n hn
      have hnL : n ∈ L := by
        rcases List.mem_append.mp hn with h | h
        · exact hA0L n h
        · exact hB0L n h
      rw [show (nodeAt s' n).fwd.length = (nodeAt s n).fwd.length from (U5 n).2.2.2,
        hlvl' n]
      exact inv.hflen n hnL
    · intro n hn
      have hnL : n ∈ L := by
        rcases List.mem_append.mp hn with h | h
        · exact hA0L n h
        · exact hB0L n h
      show (nodeAt s' n).lvl ≤ shrinkLevel s2.headFwd s2.level
      rw [hlvl' n]
      set ℓ := (nodeAt s n).lvl with hℓ
      have hℓlev : ℓ ≤ s.level := inv.hlvl n hnL
      have hℓ16 : ℓ ≤ 16 := by
        have := inv.hlev
        omega
      apply shrinkLevel_ge
      · omega
      · have hnch : n ∈ chainL s' (A0 ++ B0) ℓ := by
          rw [chainL_mem]
          refine ⟨hn, ?_⟩
          rw [hlvl' n]
        have hch := hchains ℓ hℓ16
        have hne : chainL s' (A0 ++ B0) ℓ ≠ [] := List.ne_nil_of_mem hnch
        cases hc : chainL s' (A0 ++ B0) ℓ with
        | nil => exact absurd hc hne
        | cons c rest =>
          rw [hc] at hch
          have hhd' : fwdAt s' none ℓ = some c := hch.1
          have : fwdAt s2 none ℓ = some c := by rw [← hfwd_eq]; exact hhd'
          show s2.headFwd.getD ℓ none ≠ none
          rw [show s2.headFwd.getD ℓ none = fwdAt s2 none ℓ from rfl, this]
          simp
  refine ⟨A0 ++ B0, ?_, ?_⟩
  · rw [heq0]
    exact hinv'
  · rw [heq0]

theorem insertSL_inv {s : SLState K V} {L : List Nat} (inv : SLInv s L)
    (key : K) (v : V) (lvl : Nat) (hlvl : lvl ≤ 16) :
    ∃ L', SLInv (insertSL s key v lvl) L' := by
  by_cases hex : ∃ x ∈ L, keyAt s x = key
  · obtain ⟨x, hxL, hxk⟩ := hex
    exact ⟨L, (insert_found_spec inv v lvl hxL hxk).2.1⟩
  · push_neg at hex
    rw [insertSL_eq_new inv v lvl hex]
    obtain ⟨A0, B0, _, _, _, hinv, _⟩ := insert_new_spec inv v lvl hlvl hex
    exact ⟨A0 ++ s.nodes.length :: B0, hinv⟩

theorem deleteSL_inv {s : SLState K V} {L : List Nat} (inv : SLInv s L)
    (key : K) : ∃ L', SLInv (deleteSL s key).1 L' := by
  by_cases hex : ∃ x ∈ L, keyAt s x = key
  · obtain ⟨x, hxL, hxk⟩ := hex
    obtain ⟨L', h1, _⟩ := delete_found_inv inv hxL hxk
    exact ⟨L', h1⟩
  · push_neg at hex
    rw [deleteSL_miss inv hex]
    exact ⟨L, inv⟩

theorem newSL_inv : SLInv (newSL K V) ([] : List Nat) := by
  have hrep : ∀ i, (List.replicate 17 (none : Option Nat)).getD i none = none := by
    intro i
    rw [List.getD_eq_getElem?_getD, List.getElem?_replicate]
    split <;> rfl
  refine ⟨rfl, by show (0 : Nat) ≤ 16; omega, ?_, ?_, ?_, ?_, ?_⟩
  · intro i _
    show IsChain (newSL K V) i none (chainL (newSL K V) [] i)
    rw [show chainL (newSL K V) [] i = [] from rfl]
    show fwdAt (newSL K V) none i = none
    exact hrep i
  · simp
  · intro n hn
    cases hn
  · intro n hn
    cases hn
  · intro n hn
    cases hn

theorem foldSL_inv (ops : List (SLOp K V)) :
    ∀ (s : SLState K V) (L : List Nat), SLInv s L →
      ∃ L', SLInv (ops.foldl (fun s op => match op with
        | SLOp.ins k v lvl => insertSL s k v lvl.val
        | SLOp.del k => (deleteSL s k).1) s) L' := by
  induction ops with
  | nil => intro s L h; exact ⟨L, h⟩
  | cons op rest ih =>
    intro s L h
    rw [List.foldl_cons]
    cases op with
    | ins k v lvl =>
      obtain ⟨L2, h2⟩ := insertSL_inv h k v lvl.val (by
        have := lvl.isLt
        omega)
      exact ih _ L2 h2
    | del k =>
      obtain ⟨L2, h2⟩ := deleteSL_inv h k
      exact ih _ L2 h2

theorem runSL_inv (ops : List (SLOp K V)) : ∃ L, SLInv (runSL ops) L :=
  foldSL_inv ops (newSL K V) [] newSL_inv

end SLLemmas

/-- Claim C5: for every sequence of skip-list `Insert` and `Delete`
operations starting from a fresh skip list (each insert taking its
`RandomLevel()` outcome, always in 0..16, as an oracle argument), a full
`Range` traversal afterwards yields keys in strictly increasing order,
and the forward pointers at every level link nodes in strictly
increasing key order. -/
theorem skiplist_sorted_all_levels {K V : Type} [LinearOrder K] [Inhabited K]
    [Inhabited V] (ops : List (SLOp K V)) :
    List.Chain' (· < ·) (rangeKeys (runSL ops)) ∧
    ∀ i : Fin 17, List.Chain' (· < ·) (levelKeys (runSL ops) i.val) := by
  obtain ⟨L, inv⟩ := runSL_inv ops
  constructor
  · rw [rangeKeys, rangeIds_eq inv]
    exact List.Pairwise.chain' inv.hsorted
  · intro i
    rw [levelKeys, levelIds_eq inv i.val (by have := i.isLt; omega)]
    exact List.Pairwise.chain' (chainL_sorted inv i.val)

/-- Claim C9: on an empty skip list (empty `Range` traversal) `Min()` and
`Max()` return the zero pair with found = false; on a non-empty one,
`Min()` returns the first traversal key — which is the smallest key
stored — together with its stored value (the value `Search` returns for
it) and found = true, and `Max()` likewise returns the last traversal
key — the largest stored — with its value and found = true. -/
theorem skiplist_min_max {K V : Type} [LinearOrder K] [Inhabited K]
    [Inhabited V] (ops : List (SLOp K V)) :
    (rangeKeys (runSL ops) = [] →
      minSL (runSL ops) = (default, default, false) ∧
      maxSL (runSL ops) = (default, default, false)) ∧
    (∀ k0, (rangeKeys (runSL ops)).head? = some k0 →
      minSL (runSL ops) = (k0, (searchSL (runSL ops) k0).1, true) ∧
      ∀ k ∈ rangeKeys (runSL ops), k0 ≤ k) ∧
    (∀ k1, (rangeKeys (runSL ops)).getLast? = some k1 →
      maxSL (runSL ops) = (k1, (searchSL (runSL ops) k1).1, true) ∧
      ∀ k ∈ rangeKeys (runSL ops), k ≤ k1) := by
  obtain ⟨L, inv⟩ := runSL_inv ops
  have hrk : rangeKeys (runSL ops) = L.map (keyAt (runSL ops)) := by
    rw [rangeKeys, rangeIds_eq inv]
  refine ⟨?_, ?_, ?_⟩
  · intro h
    rw [hrk] at h
    have hL : L = [] := by
      cases L with
      | nil => rfl
      | cons a l => simp at h
    exact ⟨(minSL_spec inv).1 hL, (maxSL_spec inv).1 hL⟩
  · intro k0 h
    rw [hrk] at h
    cases hLc : L with
    | nil =>
      rw [hLc] at h
      cases h
    | cons n L' =>
      rw [hLc] at h
      have hk0 : keyAt (runSL ops) n = k0 := by simpa using h
      have hmin := (minSL_spec inv).2 n L' hLc
      have hnL : n ∈ L := by rw [hLc]; simp
      have hsearch := searchSL_hit inv hnL hk0
      constructor
      · rw [hmin, hk0, hsearch]
      · intro k hkmem
        rw [hrk, hLc] at hkmem
        obtain ⟨m, hm, rfl⟩ := List.mem_map.mp hkmem
        rcases List.mem_cons.mp hm with h' | hm'
        · rw [h', hk0]
        · have hs := inv.hsorted
          rw [hLc, List.map_cons, List.pairwise_cons] at hs
          have hlt := hs.1 (keyAt (runSL ops) m) (List.mem_map_of_mem _ hm')
          rw [← hk0]
          exact le_of_lt hlt
  · intro k1 h
    rw [hrk] at h
    rcases List.eq_nil_or_concat L with hLc | ⟨A, n, hLc⟩
    · rw [hLc] at h
      cases h
    · rw [List.concat_eq_append] at hLc
      rw [hLc, List.map_append, List.map_cons, List.map_nil,
        List.getLast?_concat] at h
      have hk1 : keyAt (runSL ops) n = k1 := by simpa using h
      have hmax := (maxSL_spec inv).2 A n hLc
      have hnL : n ∈ L := by rw [hLc]; simp
      have hsearch := searchSL_hit inv hnL hk1
      constructor
      · rw [hmax, hk1, hsearch]
      · intro k hkmem
        rw [hrk, hLc, List.map_append] at hkmem
        rcases List.mem_append.mp hkmem with hA | hB
        · obtain ⟨m, hm, rfl⟩ := List.mem_map.mp hA
          have hs := inv.hsorted
          rw [hLc, List.map_append, List.pairwise_append] at hs
          have hlt := hs.2.2 (keyAt (runSL ops) m) (List.mem_map_of_mem _ hm)
            (keyAt (runSL ops) n) (by simp)
          rw [← hk1]
          exact le_of_lt hlt
        · have hkn : k = keyAt (runSL ops) n := by simpa using hB
          rw [hkn, hk1]

/-- Witness for the C9 theorem at the spec's example key set
{10, 5, 15, 3, 20}: `Min()` yields key 3 and `Max()` key 20 with their
values and found = true. -/
theorem skiplist_min_max_witness :
    minSL (runSL [SLOp.ins (10 : Nat) (100 : Nat) 2, SLOp.ins 5 50 0,
      SLOp.ins 15 150 1, SLOp.ins 3 30 0, SLOp.ins 20 200 3]) =
      (3, 30, true) ∧
    maxSL (runSL [SLOp.ins (10 : Nat) (100 : Nat) 2, SLOp.ins 5 50 0,
      SLOp.ins 15 150 1, SLOp.ins 3 30 0, SLOp.ins 20 200 3]) =
      (20, 200, true) := by
  have h := skiplist_min_max [SLOp.ins (10 : Nat) (100 : Nat) 2,
    SLOp.ins 5 50 0, SLOp.ins 15 150 1, SLOp.ins 3 30 0, SLOp.ins 20 200 3]
  constructor
  · have h1 := (h.2.1 3 (by decide)).1
    rw [h1]
    decide
  · have h2 := (h.2.2 20 (by decide)).1
    rw [h2]
    decide

/-- Claim C10: for every skip list reached by a sequence of operations and
every key `k` already present in it, `Insert(k, v)` updates the existing
node in place: the node store does not grow, the traversal (hence the key
set and `Len()`) is unchanged, and a subsequent `Search(k)` returns
`(v, true)`. -/
theorem skiplist_insert_existing {K V : Type} [LinearOrder K] [Inhabited K]
    [Inhabited V] (ops : List (SLOp K V)) (k : K) (v : V) (lvl : Fin 17)
    (hk : k ∈ rangeKeys (runSL ops)) :
    (insertSL (runSL ops) k v lvl.val).nodes.length =
      (runSL ops).nodes.length ∧
    rangeKeys (insertSL (runSL ops) k v lvl.val) = rangeKeys (runSL ops) ∧
    lenSL (insertSL (runSL ops) k v lvl.val) = lenSL (runSL ops) ∧
    searchSL (insertSL (runSL ops) k v lvl.val) k = (v, true) := by
  obtain ⟨L, inv⟩ := runSL_inv ops
  rw [rangeKeys, rangeIds_eq inv] at hk
  obtain ⟨n, hnL, hkn⟩ := List.mem_map.mp hk
  obtain ⟨_, inv', hkeep, _, hval, hlen⟩ :=
    insert_found_spec inv v lvl.val hnL hkn
  have hrk' : rangeKeys (insertSL (runSL ops) k v lvl.val) =
      rangeKeys (runSL ops) := by
    rw [rangeKeys, rangeIds_eq inv', rangeKeys, rangeIds_eq inv]
    exact List.map_congr_left fun m _ => hkeep m
  refine ⟨hlen, hrk', ?_, ?_⟩
  · rw [lenSL, rangeIds_eq inv', lenSL, rangeIds_eq inv]
  · have hk' : keyAt (insertSL (runSL ops) k v lvl.val) n = k := by
      rw [hkeep n, hkn]
    rw [searchSL_hit inv' hnL hk', hval]

/-- Witness for the C10 theorem: with keys 5 and 10 present, re-inserting
key 5 with value 999 keeps the store size, traversal and length, and
`Search(5)` then returns `(999, true)`. -/
theorem skiplist_insert_existing_witness :
    (5 : Nat) ∈ rangeKeys (runSL [SLOp.ins (5 : Nat) (50 : Nat) 0,
      SLOp.ins 10 100 1]) ∧
    searchSL (insertSL (runSL [SLOp.ins (5 : Nat) (50 : Nat) 0,
      SLOp.ins 10 100 1]) 5 999 (0 : Fin 17).val) 5 = (999, true) := by
  have hk : (5 : Nat) ∈ rangeKeys (runSL [SLOp.ins (5 : Nat) (50 : Nat) 0,
    SLOp.ins 10 100 1]) := by decide
  exact ⟨hk, (skiplist_insert_existing [SLOp.ins (5 : Nat) (50 : Nat) 0,
    SLOp.ins 10 100 1] 5 999 0 hk).2.2.2⟩

end ArenaGo
